import Mathlib

/-!
Verification of the boundary-tracing and region-selection engine of the
canvas editor: a shallow embedding, in Lean 4, of the flood-fill region
grower (`src/lib/canvas/ImageProcessing.ts`), of the Sobel edge-detection
pipeline feeding the pathfinding cost map, of the Dijkstra and A-star grid
pathfinders and path utilities (`src/lib/canvas/Pathfinding.ts`), and of
the lasso session controller (`src/lib/canvas/LassoEngine.ts`), together
with theorems settling the specification's testable properties.

Modelling conventions, used throughout:
* JavaScript numbers are modelled exactly: integral quantities as `Nat`
  or `Int`, fractional quantities as `Rat`.
* `Math.sqrt` appears in the source only inside order comparisons
  (`sqrt s <= t`, `sqrt s > t`) or as an accumulated approximate length.
  Comparisons are embedded exactly through the algebraic equivalences
  `sqrt s <= t ↔ 0 <= t ∧ s <= t*t` (for `s >= 0`); bridge lemmas against
  `Real.sqrt` justify each such encoding.  Where the value of a square
  root is stored and reused (pathfinder heuristics, path lengths), the
  float-valued `Math.sqrt` is modelled by the rational-valued
  approximation `rsqrt`, mirroring the fact that the float function
  itself is a rational-valued approximation of the real square root.
* `Uint8ClampedArray` stores are modelled by `u8store`: round half to
  even, then clamp to `[0, 255]`, exactly as the TypedArray conversion.
-/

/-- Square-root comparison oracle: for `0 ≤ s`, `sqrtLeB s t` decides
`Real.sqrt s ≤ t`.  Used to embed the source comparison
`Math.sqrt(dr*dr+dg*dg+db*db) <= toleranceThreshold` exactly. -/
def sqrtLeB (s t : ℚ) : Bool :=
  decide (0 ≤ t) && decide (s ≤ t * t)

/-- Square-root comparison oracle: for `0 ≤ s`, `sqrtGtB s t` decides
`Real.sqrt s > t`.  Used to embed the source comparison
`magnitude > threshold` exactly. -/
def sqrtGtB (s t : ℚ) : Bool :=
  decide (t < 0) || decide (t * t < s)

/-- Bridge: `sqrtLeB` agrees with the real square-root comparison. -/
theorem sqrtLeB_iff (s t : ℚ) (hs : 0 ≤ s) :
    sqrtLeB s t = true ↔ Real.sqrt (s : ℝ) ≤ (t : ℝ) := by
  unfold sqrtLeB
  simp only [Bool.and_eq_true, decide_eq_true_eq]
  constructor
  · rintro ⟨ht, hle⟩
    have h1 : Real.sqrt (s : ℝ) ≤ Real.sqrt ((t : ℝ) * (t : ℝ)) := by
      apply Real.sqrt_le_sqrt
      exact_mod_cast hle
    have h2 : Real.sqrt ((t : ℝ) * (t : ℝ)) = (t : ℝ) := by
      rw [Real.sqrt_mul_self (by exact_mod_cast ht)]
    linarith
  · intro h
    have ht : (0 : ℝ) ≤ (t : ℝ) := le_trans (Real.sqrt_nonneg _) h
    refine ⟨by exact_mod_cast ht, ?_⟩
    have h1 : Real.sqrt (s : ℝ) * Real.sqrt (s : ℝ) ≤ (t : ℝ) * (t : ℝ) :=
      mul_le_mul h h (Real.sqrt_nonneg _) ht
    rw [Real.mul_self_sqrt (by exact_mod_cast hs)] at h1
    exact_mod_cast h1

/-- Bridge: `sqrtGtB` agrees with the real square-root comparison. -/
theorem sqrtGtB_iff (s t : ℚ) (hs : 0 ≤ s) :
    sqrtGtB s t = true ↔ (t : ℝ) < Real.sqrt (s : ℝ) := by
  unfold sqrtGtB
  simp only [Bool.or_eq_true, decide_eq_true_eq]
  constructor
  · rintro (ht | hlt)
    · exact lt_of_lt_of_le (by exact_mod_cast ht) (Real.sqrt_nonneg _)
    · by_cases ht : t < 0
      · exact lt_of_lt_of_le (by exact_mod_cast ht) (Real.sqrt_nonneg _)
      · have ht' : (0 : ℝ) ≤ (t : ℝ) := by exact_mod_cast not_lt.mp ht
        have h1 : Real.sqrt ((t : ℝ) * (t : ℝ)) < Real.sqrt (s : ℝ) := by
          apply Real.sqrt_lt_sqrt (mul_self_nonneg _)
          exact_mod_cast hlt
        rwa [Real.sqrt_mul_self ht'] at h1
  · intro h
    by_cases ht : t < 0
    · exact Or.inl ht
    · right
      have ht' : (0 : ℝ) ≤ (t : ℝ) := by exact_mod_cast not_lt.mp ht
      have h1 : (t : ℝ) * (t : ℝ) < Real.sqrt (s : ℝ) * Real.sqrt (s : ℝ) :=
        mul_self_lt_mul_self ht' h
      rw [Real.mul_self_sqrt (by exact_mod_cast hs)] at h1
      exact_mod_cast h1

/-!  ## Pixel buffers

`ImageData`: width, height, and an interleaved RGBA byte array of length
`width*height*4`.  The byte array is modelled as a total function from
flat data index to byte value; indices past the buffer are irrelevant to
every operation below.  -/

structure ImageData where
  width : ℕ
  height : ℕ
  data : ℕ → ℕ

/-!  ## Flood fill (`floodFill`, ImageProcessing.ts lines 480-644)  -/

/-- Squared Euclidean RGB distance.  The source computes
`Math.sqrt(dr*dr+dg*dg+db*db)`; we keep the square and compare through
`sqrtLeB`, which is exact (see `sqrtLeB_iff`). -/
def colorDifferenceSq (r1 g1 b1 r2 g2 b2 : ℤ) : ℤ :=
  (r1 - r2) * (r1 - r2) + (g1 - g2) * (g1 - g2) + (b1 - b2) * (b1 - b2)

/-- `(tolerance / 255) * 441.67`, the 0-255 tolerance rescaled to the
0-441 Euclidean color-distance range (source line 525). -/
def toleranceThreshold (tolerance : ℚ) : ℚ :=
  (tolerance / 255) * (44167 / 100)

structure FloodFillOptions where
  tolerance : ℚ
  contiguous : Bool
  maxPixels : Option ℕ

/-- Rectangle, as produced for `SegmentationResult.bounds`. -/
structure Rectangle where
  x : ℤ
  y : ℤ
  width : ℤ
  height : ℤ
deriving DecidableEq

/-- Segmentation result.  `processingTime` (wall clock) is dropped:
it is the one metadata field outside the functional model. -/
structure SegmentationResult where
  mask : List ℕ
  bounds : Rectangle
  pixels : List ℕ
  hitLimit : Bool
  seedColor : ℕ × ℕ × ℕ × ℕ
  tolerance : ℚ
  pixelCount : ℕ
deriving DecidableEq

/-- The per-call context of a flood fill: buffer dimensions and data,
seed color, tolerance and pixel cap. -/
structure FillCtx where
  W : ℕ
  H : ℕ
  data : ℕ → ℕ
  seedR : ℕ
  seedG : ℕ
  seedB : ℕ
  tolerance : ℚ
  maxPixels : Option ℕ

/-- Does the pixel at flat index `i` pass the color-similarity test
against the seed color (source lines 546-554)? -/
def qualifies (c : FillCtx) (i : ℕ) : Bool :=
  sqrtLeB
    ((colorDifferenceSq (c.data (i * 4)) (c.data (i * 4 + 1)) (c.data (i * 4 + 2))
        c.seedR c.seedG c.seedB : ℤ) : ℚ)
    (toleranceThreshold c.tolerance)

/-- The JavaScript truthiness guard `maxPixels && pixels.length >= maxPixels`
(source line 566): `undefined` and `0` are falsy. -/
def maxHit (maxPixels : Option ℕ) (n : ℕ) : Bool :=
  match maxPixels with
  | none => false
  | some k => decide (k ≠ 0) && decide (k ≤ n)

/-- Mutable state of the contiguous fill loop.  The JS code stores the
work list as a flat number array pushed in pairs and popped from the end;
we store it as a list of pairs whose head is the next pair popped. -/
structure FillSt where
  queue : List (ℤ × ℤ)
  visited : List Bool
  mask : List ℕ
  pixels : List ℕ
  minX : ℤ
  minY : ℤ
  maxX : ℤ
  maxY : ℤ
  hitLimit : Bool

/-- One-for-one embedding of the contiguous `while (queue.length > 0)`
loop (source lines 532-577), by fuel recursion; `floodFill` supplies
fuel `5*W*H + 2`, which is proved sufficient (`fillLoop_terminal`).
The four neighbor pushes `(x+1,y) (x-1,y) (x,y+1) (x,y-1)` are popped in
reverse order by the source's `Array.prototype.pop`, hence the head
order `(x,y-1) (x,y+1) (x-1,y) (x+1,y)` below. -/
def fillLoop (c : FillCtx) : ℕ → FillSt → FillSt
  | 0, s => s
  | Nat.succ f, s =>
    match s.queue with
    | [] => s
    | (x, y) :: rest =>
      if x < 0 ∨ (c.W : ℤ) ≤ x ∨ y < 0 ∨ (c.H : ℤ) ≤ y then
        fillLoop c f { s with queue := rest }
      else
        let i : ℕ := y.toNat * c.W + x.toNat
        if s.visited.getD i false then
          fillLoop c f { s with queue := rest }
        else
          if qualifies c i then
            let s2 : FillSt :=
              { queue := rest
                visited := s.visited.set i true
                mask := s.mask.set i 255
                pixels := s.pixels ++ [i]
                minX := min s.minX x
                minY := min s.minY y
                maxX := max s.maxX x
                maxY := max s.maxY y
                hitLimit := s.hitLimit }
            if maxHit c.maxPixels s2.pixels.length then
              { s2 with hitLimit := true }
            else
              fillLoop c f
                { s2 with queue :=
                    (x, y - 1) :: (x, y + 1) :: (x - 1, y) :: (x + 1, y) :: rest }
          else
            fillLoop c f { s with queue := rest, visited := s.visited.set i true }

/-- The global (non-contiguous) raster scan (source lines 598-624), as a
fold over the flat indices in scan order.  The inner/outer `break` pair
fires immediately after an accepting pixel reaches the cap, which is
equivalent to stopping the flat scan there. -/
def globalScan (c : FillCtx) : List ℕ → FillSt → FillSt
  | [], s => s
  | i :: is, s =>
    if qualifies c i then
      let s2 : FillSt :=
        { s with
            mask := s.mask.set i 255
            pixels := s.pixels ++ [i]
            minX := min s.minX ((i % c.W : ℕ) : ℤ)
            minY := min s.minY ((i / c.W : ℕ) : ℤ)
            maxX := max s.maxX ((i % c.W : ℕ) : ℤ)
            maxY := max s.maxY ((i / c.W : ℕ) : ℤ) }
      if maxHit c.maxPixels s2.pixels.length then s2
      else globalScan c is s2
    else globalScan c is s

/-- The `hitLimit` value of the global branch
(`maxPixels !== undefined && pixels.length >= maxPixels`, line 635):
note the defined-ness test rather than the truthiness test. -/
def globalHitLimit (maxPixels : Option ℕ) (n : ℕ) : Bool :=
  match maxPixels with
  | none => false
  | some k => decide (k ≤ n)

/-- The context built by `floodFill` for an in-bounds seed. -/
def ctxOf (img : ImageData) (startX startY : ℤ) (opts : FloodFillOptions) : FillCtx :=
  { W := img.width
    H := img.height
    data := img.data
    seedR := img.data ((startY.toNat * img.width + startX.toNat) * 4)
    seedG := img.data ((startY.toNat * img.width + startX.toNat) * 4 + 1)
    seedB := img.data ((startY.toNat * img.width + startX.toNat) * 4 + 2)
    tolerance := opts.tolerance
    maxPixels := opts.maxPixels }

/-- The initial loop state: queue holding the seed pair, all-false
visited bitmap, all-zero mask, and the bounds accumulators starting at
`minX = width`, `minY = height`, `maxX = maxY = 0` (lines 519-522). -/
def initSt (img : ImageData) (startX startY : ℤ) : FillSt :=
  { queue := [(startX, startY)]
    visited := List.replicate (img.width * img.height) false
    mask := List.replicate (img.width * img.height) 0
    pixels := []
    minX := (img.width : ℤ)
    minY := (img.height : ℤ)
    maxX := 0
    maxY := 0
    hitLimit := false }

/-- `floodFill` (ImageProcessing.ts lines 480-644). -/
def floodFill (img : ImageData) (startX startY : ℤ)
    (opts : FloodFillOptions) : SegmentationResult :=
  if startX < 0 ∨ (img.width : ℤ) ≤ startX ∨ startY < 0 ∨ (img.height : ℤ) ≤ startY then
    { mask := List.replicate (img.width * img.height) 0
      bounds := ⟨0, 0, 0, 0⟩
      pixels := []
      hitLimit := false
      seedColor := (0, 0, 0, 0)
      tolerance := opts.tolerance
      pixelCount := 0 }
  else
    let c := ctxOf img startX startY opts
    let si := (startY.toNat * img.width + startX.toNat) * 4
    let F :=
      if opts.contiguous then
        fillLoop c (5 * (img.width * img.height) + 2) (initSt img startX startY)
      else
        globalScan c (List.range (img.width * img.height)) (initSt img startX startY)
    { mask := F.mask
      bounds := ⟨F.minX, F.minY, F.maxX - F.minX + 1, F.maxY - F.minY + 1⟩
      pixels := F.pixels
      hitLimit :=
        if opts.contiguous then F.hitLimit
        else globalHitLimit opts.maxPixels F.pixels.length
      seedColor := (img.data si, img.data (si + 1), img.data (si + 2), img.data (si + 3))
      tolerance := opts.tolerance
      pixelCount := F.pixels.length }

/-!  ## Flood fill: basic geometry helpers  -/

/-- In-bounds predicate for a pixel coordinate (`0 ≤ x < W ∧ 0 ≤ y < H`). -/
def inBounds (W H : ℕ) (x y : ℤ) : Prop :=
  0 ≤ x ∧ x < (W : ℤ) ∧ 0 ≤ y ∧ y < (H : ℤ)

instance (W H : ℕ) (x y : ℤ) : Decidable (inBounds W H x y) := by
  unfold inBounds; infer_instance

/-- Flat pixel index `y * W + x` of an in-bounds coordinate. -/
def flatIdx (W : ℕ) (x y : ℤ) : ℕ :=
  y.toNat * W + x.toNat

/-- The four orthogonal neighbor offsets (4-connectivity). -/
def dirs4 : List (ℤ × ℤ) := [(1, 0), (-1, 0), (0, 1), (0, -1)]

theorem flatIdx_lt {W H : ℕ} {x y : ℤ} (h : inBounds W H x y) :
    flatIdx W x y < W * H := by
  obtain ⟨hx0, hxW, hy0, hyH⟩ := h
  unfold flatIdx
  have hx : x.toNat < W := by omega
  have hy : y.toNat < H := by omega
  calc y.toNat * W + x.toNat < y.toNat * W + W := by omega
    _ = (y.toNat + 1) * W := by ring
    _ ≤ H * W := Nat.mul_le_mul_right W (by omega)
    _ = W * H := Nat.mul_comm H W

theorem flatIdx_mod {W H : ℕ} {x y : ℤ} (h : inBounds W H x y) :
    flatIdx W x y % W = x.toNat := by
  obtain ⟨hx0, hxW, hy0, hyH⟩ := h
  unfold flatIdx
  have hx : x.toNat < W := by omega
  rw [Nat.mul_comm y.toNat W, Nat.mul_add_mod, Nat.mod_eq_of_lt hx]

theorem flatIdx_div {W H : ℕ} {x y : ℤ} (h : inBounds W H x y) :
    flatIdx W x y / W = y.toNat := by
  obtain ⟨hx0, hxW, hy0, hyH⟩ := h
  unfold flatIdx
  have hx : x.toNat < W := by omega
  have hW : 0 < W := by omega
  rw [Nat.mul_comm, Nat.mul_add_div hW, Nat.div_eq_of_lt hx, Nat.add_zero]

theorem flatIdx_inj {W H : ℕ} {x y x' y' : ℤ} (h : inBounds W H x y)
    (h' : inBounds W H x' y') (he : flatIdx W x y = flatIdx W x' y') :
    x = x' ∧ y = y' := by
  have h1 := flatIdx_mod h
  have h2 := flatIdx_mod h'
  have h3 := flatIdx_div h
  have h4 := flatIdx_div h'
  rw [he] at h1 h3
  obtain ⟨hx0, hxW, hy0, hyH⟩ := h
  obtain ⟨hx0', hxW', hy0', hyH'⟩ := h'
  omega

theorem flatIdx_recompose {W H : ℕ} (i : ℕ) (hW : 0 < W) (hi : i < W * H) :
    inBounds W H ((i % W : ℕ) : ℤ) ((i / W : ℕ) : ℤ) ∧
      flatIdx W ((i % W : ℕ) : ℤ) ((i / W : ℕ) : ℤ) = i := by
  have hm : i % W < W := Nat.mod_lt i hW
  have hd : i / W < H := Nat.div_lt_of_lt_mul (by omega)
  constructor
  · exact ⟨by positivity, by exact_mod_cast hm, by positivity, by exact_mod_cast hd⟩
  · unfold flatIdx
    simp only [Int.toNat_ofNat]
    rw [Nat.mul_comm, Nat.div_add_mod]

/-!  ## List helper lemmas  -/

theorem getD_set_eq {α : Type} (l : List α) (i : ℕ) (v d : α) (h : i < l.length) :
    (l.set i v).getD i d = v := by
  induction l generalizing i with
  | nil => simp at h
  | cons a t ih =>
    cases i with
    | zero => simp
    | succ n =>
      simp only [List.set_cons_succ, List.getD_cons_succ]
      exact ih n (by simpa using h)

theorem getD_set_ne {α : Type} (l : List α) (i j : ℕ) (v d : α) (h : j ≠ i) :
    (l.set i v).getD j d = l.getD j d := by
  induction l generalizing i j with
  | nil => simp
  | cons a t ih =>
    cases i with
    | zero =>
      cases j with
      | zero => exact absurd rfl h
      | succ m => simp
    | succ n =>
      cases j with
      | zero => simp
      | succ m =>
        simp only [List.set_cons_succ, List.getD_cons_succ]
        exact ih n m (by omega)

theorem count_false_set (l : List Bool) (i : ℕ) (h : i < l.length)
    (hf : l.getD i false = false) :
    (l.set i true).count false + 1 = l.count false := by
  induction l generalizing i with
  | nil => simp at h
  | cons a t ih =>
    cases i with
    | zero =>
      simp only [List.getD_cons_zero] at hf
      subst hf
      simp [List.count_cons]
    | succ n =>
      simp only [List.getD_cons_succ] at hf
      simp only [List.set_cons_succ, List.count_cons]
      have := ih n (by simpa using h) hf
      omega

/-!  ## Flood fill loop termination  -/

/-- Decreasing measure of the contiguous fill loop: five units per
unvisited pixel plus one per queued pair. -/
def fillMeasure (s : FillSt) : ℕ :=
  5 * s.visited.count false + s.queue.length

/-- With fuel exceeding the measure, the loop runs to an actual exit:
either the queue empties or the pixel cap fires. -/
theorem fillLoop_terminal (c : FillCtx) :
    ∀ fuel s, s.visited.length = c.W * c.H → fillMeasure s < fuel →
      (fillLoop c fuel s).queue = [] ∨ (fillLoop c fuel s).hitLimit = true := by
  intro fuel
  induction fuel with
  | zero => intro s _ h; exact absurd h (by omega)
  | succ f ih =>
    intro s hvl h
    match hq : s.queue with
    | [] =>
      left
      simp only [fillLoop, hq]
    | (x, y) :: rest =>
      unfold fillMeasure at h
      rw [hq] at h
      simp only [List.length_cons] at h
      simp only [fillLoop, hq]
      by_cases hb : x < 0 ∨ (c.W : ℤ) ≤ x ∨ y < 0 ∨ (c.H : ℤ) ≤ y
      · rw [if_pos hb]
        exact ih _ hvl (by unfold fillMeasure; simp only; omega)
      · rw [if_neg hb]
        push_neg at hb
        set i : ℕ := y.toNat * c.W + x.toNat with hi
        have hiLt : i < s.visited.length := by
          rw [hvl]
          exact flatIdx_lt ⟨by omega, by omega, by omega, by omega⟩
        by_cases hv : s.visited.getD i false
        · rw [if_pos hv]
          exact ih _ hvl (by unfold fillMeasure; simp only; omega)
        · rw [if_neg hv]
          have hcnt := count_false_set s.visited i hiLt (by simpa using hv)
          by_cases hqual : qualifies c i = true
          · rw [if_pos hqual]
            by_cases hmax : maxHit c.maxPixels (s.pixels ++ [i]).length
            · rw [if_pos hmax]
              right; rfl
            · rw [if_neg (by simpa using hmax)]
              apply ih _ (by simpa using hvl)
              unfold fillMeasure
              simp only [List.length_cons]
              omega
          · rw [if_neg hqual]
            apply ih _ (by simpa using hvl)
            unfold fillMeasure
            simp only [List.length_cons]
            omega

theorem getD_set_true_mono (l : List Bool) (i j : ℕ) (h : l.getD j false = true) :
    (l.set i true).getD j false = true := by
  by_cases hij : j = i
  · subst hij
    by_cases hl : j < l.length
    · rw [getD_set_eq _ _ _ _ hl]
    · rw [List.set_eq_of_length_le (by omega)]
      exact h
  · rw [getD_set_ne _ _ _ _ _ hij]
    exact h

/-!  ## Flood fill loop invariant

All facts about the contiguous loop state used by the final theorems:
consistency of `mask`/`pixels`/`visited`, the pixel-cap accounting, the
bounds accumulators, and the frontier-closure facts that drive the
completeness argument.  -/

structure FillInv (c : FillCtx) (sx sy : ℤ) (s : FillSt) : Prop where
  vlen : s.visited.length = c.W * c.H
  mlen : s.mask.length = c.W * c.H
  nodup : s.pixels.Nodup
  pixLt : ∀ i ∈ s.pixels, i < c.W * c.H
  pixVis : ∀ i ∈ s.pixels, s.visited.getD i false = true
  pixQual : ∀ i ∈ s.pixels, qualifies c i = true
  maskIff : ∀ i, s.mask.getD i 0 = if i ∈ s.pixels then 255 else 0
  limitLt : s.hitLimit = false → ∀ k, c.maxPixels = some k → k ≠ 0 → s.pixels.length < k
  limitEq : s.hitLimit = true → ∃ k, c.maxPixels = some k ∧ k ≠ 0 ∧ s.pixels.length = k
  seedQ : (sx, sy) ∈ s.queue ∨ s.visited.getD (flatIdx c.W sx sy) false = true
  closure : s.hitLimit = false → ∀ x y, inBounds c.W c.H x y →
    flatIdx c.W x y ∈ s.pixels → ∀ d ∈ dirs4,
      inBounds c.W c.H (x + d.1) (y + d.2) →
      ((x + d.1, y + d.2) ∈ s.queue ∨
        s.visited.getD (flatIdx c.W (x + d.1) (y + d.2)) false = true)
  visQualPix : ∀ x y, inBounds c.W c.H x y →
    s.visited.getD (flatIdx c.W x y) false = true →
    qualifies c (flatIdx c.W x y) = true → flatIdx c.W x y ∈ s.pixels
  minXle : ∀ i ∈ s.pixels, s.minX ≤ ((i % c.W : ℕ) : ℤ)
  minYle : ∀ i ∈ s.pixels, s.minY ≤ ((i / c.W : ℕ) : ℤ)
  maxXge : ∀ i ∈ s.pixels, ((i % c.W : ℕ) : ℤ) ≤ s.maxX
  maxYge : ∀ i ∈ s.pixels, ((i / c.W : ℕ) : ℤ) ≤ s.maxY
  minXmem : s.pixels ≠ [] → ∃ i ∈ s.pixels, s.minX = ((i % c.W : ℕ) : ℤ)
  minYmem : s.pixels ≠ [] → ∃ i ∈ s.pixels, s.minY = ((i / c.W : ℕ) : ℤ)
  maxXmem : s.pixels ≠ [] → ∃ i ∈ s.pixels, s.maxX = ((i % c.W : ℕ) : ℤ)
  maxYmem : s.pixels ≠ [] → ∃ i ∈ s.pixels, s.maxY = ((i / c.W : ℕ) : ℤ)
  emptyB : s.pixels = [] →
    s.minX = (c.W : ℤ) ∧ s.minY = (c.H : ℤ) ∧ s.maxX = 0 ∧ s.maxY = 0

theorem fillInv_skip (c : FillCtx) (sx sy : ℤ) (hseed : inBounds c.W c.H sx sy)
    (s : FillSt) (x y : ℤ) (rest : List (ℤ × ℤ)) (hq : s.queue = (x, y) :: rest)
    (hcase : ¬ inBounds c.W c.H x y ∨ s.visited.getD (flatIdx c.W x y) false = true)
    (inv : FillInv c sx sy s) : FillInv c sx sy { s with queue := rest } := by
  constructor <;> try exact inv.vlen
  case mlen => exact inv.mlen
  case nodup => exact inv.nodup
  case pixLt => exact inv.pixLt
  case pixVis => exact inv.pixVis
  case pixQual => exact inv.pixQual
  case maskIff => exact inv.maskIff
  case limitLt => exact inv.limitLt
  case limitEq => exact inv.limitEq
  case seedQ =>
    rcases inv.seedQ with hmem | hvis
    · rw [hq] at hmem
      rcases List.mem_cons.mp hmem with heq | hrest
      · have hxy : sx = x ∧ sy = y := Prod.mk.inj heq
        rcases hcase with hoob | hvis2
        · exact absurd hseed (by rw [hxy.1, hxy.2]; exact hoob)
        · right
          rw [hxy.1, hxy.2]
          exact hvis2
      · exact Or.inl hrest
    · exact Or.inr hvis
  case closure =>
    intro hl x' y' hin' hmem d hd hinN
    rcases inv.closure hl x' y' hin' hmem d hd hinN with hq2 | hvis
    · rw [hq] at hq2
      rcases List.mem_cons.mp hq2 with heq | hrest
      · have hxy : x' + d.1 = x ∧ y' + d.2 = y := Prod.mk.inj heq
        rcases hcase with hoob | hvis2
        · exact absurd (hxy.1 ▸ hxy.2 ▸ hinN) hoob
        · right
          rw [hxy.1, hxy.2]
          exact hvis2
      · exact Or.inl hrest
    · exact Or.inr hvis
  case visQualPix => exact inv.visQualPix
  case minXle => exact inv.minXle
  case minYle => exact inv.minYle
  case maxXge => exact inv.maxXge
  case maxYge => exact inv.maxYge
  case minXmem => exact inv.minXmem
  case minYmem => exact inv.minYmem
  case maxXmem => exact inv.maxXmem
  case maxYmem => exact inv.maxYmem
  case emptyB => exact inv.emptyB

theorem fillInv_reject (c : FillCtx) (sx sy : ℤ) (hseed : inBounds c.W c.H sx sy)
    (s : FillSt) (x y : ℤ) (rest : List (ℤ × ℤ)) (hq : s.queue = (x, y) :: rest)
    (hin : inBounds c.W c.H x y)
    (hnq : qualifies c (flatIdx c.W x y) = false)
    (inv : FillInv c sx sy s) :
    FillInv c sx sy
      { s with queue := rest, visited := s.visited.set (flatIdx c.W x y) true } := by
  have hiLt : flatIdx c.W x y < s.visited.length := by
    rw [inv.vlen]; exact flatIdx_lt hin
  constructor
  case vlen => simpa using inv.vlen
  case mlen => exact inv.mlen
  case nodup => exact inv.nodup
  case pixLt => exact inv.pixLt
  case pixVis =>
    intro j hj
    exact getD_set_true_mono _ _ _ (inv.pixVis j hj)
  case pixQual => exact inv.pixQual
  case maskIff => exact inv.maskIff
  case limitLt => exact inv.limitLt
  case limitEq => exact inv.limitEq
  case seedQ =>
    rcases inv.seedQ with hmem | hvis
    · rw [hq] at hmem
      rcases List.mem_cons.mp hmem with heq | hrest
      · have hxy : sx = x ∧ sy = y := Prod.mk.inj heq
        right
        rw [hxy.1, hxy.2]
        exact getD_set_eq _ _ _ _ hiLt
      · exact Or.inl hrest
    · exact Or.inr (getD_set_true_mono _ _ _ hvis)
  case closure =>
    intro hl x' y' hin' hmem d hd hinN
    rcases inv.closure hl x' y' hin' hmem d hd hinN with hq2 | hvis
    · rw [hq] at hq2
      rcases List.mem_cons.mp hq2 with heq | hrest
      · have hxy : x' + d.1 = x ∧ y' + d.2 = y := Prod.mk.inj heq
        right
        rw [hxy.1, hxy.2]
        exact getD_set_eq _ _ _ _ hiLt
      · exact Or.inl hrest
    · exact Or.inr (getD_set_true_mono _ _ _ hvis)
  case visQualPix =>
    intro x' y' hin' hvis hqual
    by_cases hij : flatIdx c.W x' y' = flatIdx c.W x y
    · obtain ⟨hx', hy'⟩ := flatIdx_inj hin' hin hij
      subst hx'; subst hy'
      exact absurd hqual (by rw [hnq]; simp)
    · rw [getD_set_ne _ _ _ _ _ hij] at hvis
      exact inv.visQualPix x' y' hin' hvis hqual
  case minXle => exact inv.minXle
  case minYle => exact inv.minYle
  case maxXge => exact inv.maxXge
  case maxYge => exact inv.maxYge
  case minXmem => exact inv.minXmem
  case minYmem => exact inv.minYmem
  case maxXmem => exact inv.maxXmem
  case maxYmem => exact inv.maxYmem
  case emptyB => exact inv.emptyB

theorem fillInv_accept (c : FillCtx) (sx sy : ℤ) (hseed : inBounds c.W c.H sx sy)
    (s : FillSt) (x y : ℤ) (rest : List (ℤ × ℤ)) (hq : s.queue = (x, y) :: rest)
    (hin : inBounds c.W c.H x y)
    (hnv : s.visited.getD (flatIdx c.W x y) false = false)
    (hqual : qualifies c (flatIdx c.W x y) = true)
    (hl : s.hitLimit = false)
    (newq : List (ℤ × ℤ))
    (hnewq : newq = (x, y - 1) :: (x, y + 1) :: (x - 1, y) :: (x + 1, y) :: rest ∨
      (newq = rest ∧
        maxHit c.maxPixels (s.pixels ++ [flatIdx c.W x y]).length = true))
    (newhit : Bool)
    (hnewhit : (newhit = s.hitLimit ∧
        maxHit c.maxPixels (s.pixels ++ [flatIdx c.W x y]).length = false ∧
        newq = (x, y - 1) :: (x, y + 1) :: (x - 1, y) :: (x + 1, y) :: rest) ∨
      (newhit = true ∧
        maxHit c.maxPixels (s.pixels ++ [flatIdx c.W x y]).length = true))
    (inv : FillInv c sx sy s) :
    FillInv c sx sy
      { queue := newq
        visited := s.visited.set (flatIdx c.W x y) true
        mask := s.mask.set (flatIdx c.W x y) 255
        pixels := s.pixels ++ [flatIdx c.W x y]
        minX := min s.minX x
        minY := min s.minY y
        maxX := max s.maxX x
        maxY := max s.maxY y
        hitLimit := newhit } := by
  have hiLtN : flatIdx c.W x y < c.W * c.H := flatIdx_lt hin
  have hiLt : flatIdx c.W x y < s.visited.length := by rw [inv.vlen]; exact hiLtN
  have hiLtM : flatIdx c.W x y < s.mask.length := by rw [inv.mlen]; exact hiLtN
  have hnotmem : flatIdx c.W x y ∉ s.pixels := by
    intro hmem
    exact absurd (inv.pixVis _ hmem) (by rw [hnv]; simp)
  have hxN : ((flatIdx c.W x y % c.W : ℕ) : ℤ) = x := by
    rw [flatIdx_mod hin]
    exact Int.toNat_of_nonneg hin.1
  have hyN : ((flatIdx c.W x y / c.W : ℕ) : ℤ) = y := by
    rw [flatIdx_div hin]
    exact Int.toNat_of_nonneg hin.2.2.1
  constructor
  case vlen => simpa using inv.vlen
  case mlen => simpa using inv.mlen
  case nodup =>
    rw [List.nodup_append]
    exact ⟨inv.nodup, List.nodup_singleton _, by
      intro a ha hb
      rw [List.mem_singleton.mp hb] at ha
      exact hnotmem ha⟩
  case pixLt =>
    intro j hj
    rcases List.mem_append.mp hj with hj | hj
    · exact inv.pixLt j hj
    · rw [List.mem_singleton.mp hj]; exact hiLtN
  case pixVis =>
    intro j hj
    rcases List.mem_append.mp hj with hj | hj
    · exact getD_set_true_mono _ _ _ (inv.pixVis j hj)
    · rw [List.mem_singleton.mp hj]
      exact getD_set_eq _ _ _ _ hiLt
  case pixQual =>
    intro j hj
    rcases List.mem_append.mp hj with hj | hj
    · exact inv.pixQual j hj
    · rw [List.mem_singleton.mp hj]; exact hqual
  case maskIff =>
    intro j
    by_cases hij : j = flatIdx c.W x y
    · subst hij
      rw [getD_set_eq _ _ _ _ hiLtM, if_pos (by simp)]
    · rw [getD_set_ne _ _ _ _ _ hij, inv.maskIff j]
      have : (j ∈ s.pixels ++ [flatIdx c.W x y]) ↔ j ∈ s.pixels := by
        simp only [List.mem_append, List.mem_singleton]
        exact or_iff_left hij
      by_cases hjm : j ∈ s.pixels
      · rw [if_pos hjm, if_pos (this.mpr hjm)]
      · rw [if_neg hjm, if_neg (fun hc => hjm (this.mp hc))]
  case limitLt =>
    intro hnf k hk hk0
    rcases hnewhit with ⟨hnh, hmax, _⟩ | ⟨hnh, _⟩
    · rw [hmax.symm] at hnf
      unfold maxHit at hmax
      rw [hk] at hmax
      simp only [Bool.and_eq_false_iff, decide_eq_false_iff_not] at hmax
      rcases hmax with hc | hc
      · exact absurd hk0 (by simpa using hc)
      · simp only [List.length_append, List.length_singleton] at hc ⊢
        omega
    · rw [hnh] at hnf
      exact absurd hnf (by simp)
  case limitEq =>
    intro hnt
    rcases hnewhit with ⟨hnh, hmax, _⟩ | ⟨hnh, hmax⟩
    · rw [hnh, hl] at hnt
      exact absurd hnt (by simp)
    · unfold maxHit at hmax
      match hmp : c.maxPixels with
      | none => rw [hmp] at hmax; simp at hmax
      | some k =>
        rw [hmp] at hmax
        simp only [Bool.and_eq_true, decide_eq_true_eq] at hmax
        refine ⟨k, rfl, hmax.1, ?_⟩
        have hlt := inv.limitLt hl k hmp hmax.1
        simp only [List.length_append, List.length_singleton] at hmax ⊢
        omega
  case seedQ =>
    rcases inv.seedQ with hmem | hvis
    · rw [hq] at hmem
      rcases List.mem_cons.mp hmem with heq | hrest
      · have hxy : sx = x ∧ sy = y := Prod.mk.inj heq
        right
        rw [hxy.1, hxy.2]
        exact getD_set_eq _ _ _ _ hiLt
      · left
        rcases hnewq with hnq | ⟨hnq, _⟩ <;> rw [hnq] <;> simp [hrest]
    · exact Or.inr (getD_set_true_mono _ _ _ hvis)
  case closure =>
    intro hnf x' y' hin' hmem d hd hinN
    have hql : newq = (x, y - 1) :: (x, y + 1) :: (x - 1, y) :: (x + 1, y) :: rest := by
      rcases hnewhit with ⟨hnh, _, hnq⟩ | ⟨hnh, _⟩
      · exact hnq
      · rw [hnh] at hnf; exact absurd hnf (by simp)
    rcases List.mem_append.mp hmem with hmem | hmem
    · rcases inv.closure hl x' y' hin' hmem d hd hinN with hq2 | hvis
      · rw [hq] at hq2
        rcases List.mem_cons.mp hq2 with heq | hrest
        · have hxy : x' + d.1 = x ∧ y' + d.2 = y := Prod.mk.inj heq
          right
          rw [hxy.1, hxy.2]
          exact getD_set_eq _ _ _ _ hiLt
        · left
          rw [hql]
          simp [hrest]
      · exact Or.inr (getD_set_true_mono _ _ _ hvis)
    · have hii : flatIdx c.W x' y' = flatIdx c.W x y := List.mem_singleton.mp hmem
      obtain ⟨hx', hy'⟩ := flatIdx_inj hin' hin hii
      subst hx'; subst hy'
      left
      rw [hql]
      fin_cases hd
      · have he : (x' + (1 : ℤ), y' + (0 : ℤ)) = (x' + 1, y') := by norm_num
        rw [he]; simp
      · have he : (x' + (-1 : ℤ), y' + (0 : ℤ)) = (x' - 1, y') := by
          simp [Prod.ext_iff, sub_eq_add_neg]
        rw [he]; simp
      · have he : (x' + (0 : ℤ), y' + (1 : ℤ)) = (x', y' + 1) := by norm_num
        rw [he]; simp
      · have he : (x' + (0 : ℤ), y' + (-1 : ℤ)) = (x', y' - 1) := by
          simp [Prod.ext_iff, sub_eq_add_neg]
        rw [he]; simp
  case visQualPix =>
    intro x' y' hin' hvis hq'
    by_cases hij : flatIdx c.W x' y' = flatIdx c.W x y
    · rw [hij]
      simp
    · rw [getD_set_ne _ _ _ _ _ hij] at hvis
      exact List.mem_append.mpr (Or.inl (inv.visQualPix x' y' hin' hvis hq'))
  case minXle =>
    intro j hj
    rcases List.mem_append.mp hj with hj | hj
    · exact le_trans (min_le_left _ _) (inv.minXle j hj)
    · rw [List.mem_singleton.mp hj, hxN]
      exact min_le_right _ _
  case minYle =>
    intro j hj
    rcases List.mem_append.mp hj with hj | hj
    · exact le_trans (min_le_left _ _) (inv.minYle j hj)
    · rw [List.mem_singleton.mp hj, hyN]
      exact min_le_right _ _
  case maxXge =>
    intro j hj
    rcases List.mem_append.mp hj with hj | hj
    · exact le_trans (inv.maxXge j hj) (le_max_left _ _)
    · rw [List.mem_singleton.mp hj, hxN]
      exact le_max_right _ _
  case maxYge =>
    intro j hj
    rcases List.mem_append.mp hj with hj | hj
    · exact le_trans (inv.maxYge j hj) (le_max_left _ _)
    · rw [List.mem_singleton.mp hj, hyN]
      exact le_max_right _ _
  case minXmem =>
    intro _
    by_cases hne : s.pixels = []
    · refine ⟨flatIdx c.W x y, by simp, ?_⟩
      rw [hxN, (inv.emptyB hne).1]
      have : x ≤ (c.W : ℤ) := le_of_lt hin.2.1
      simp only
      omega
    · obtain ⟨j, hj, hje⟩ := inv.minXmem hne
      rcases min_cases s.minX x with ⟨hmeq, hmle⟩ | ⟨hmeq, hmlt⟩
      · exact ⟨j, List.mem_append.mpr (Or.inl hj), by rw [hmeq, hje]⟩
      · exact ⟨flatIdx c.W x y, by simp, by rw [hmeq, hxN]⟩
  case minYmem =>
    intro _
    by_cases hne : s.pixels = []
    · refine ⟨flatIdx c.W x y, by simp, ?_⟩
      rw [hyN, (inv.emptyB hne).2.1]
      have : y ≤ (c.H : ℤ) := le_of_lt hin.2.2.2
      simp only
      omega
    · obtain ⟨j, hj, hje⟩ := inv.minYmem hne
      rcases min_cases s.minY y with ⟨hmeq, hmle⟩ | ⟨hmeq, hmlt⟩
      · exact ⟨j, List.mem_append.mpr (Or.inl hj), by rw [hmeq, hje]⟩
      · exact ⟨flatIdx c.W x y, by simp, by rw [hmeq, hyN]⟩
  case maxXmem =>
    intro _
    by_cases hne : s.pixels = []
    · refine ⟨flatIdx c.W x y, by simp, ?_⟩
      rw [hxN, (inv.emptyB hne).2.2.1]
      have : 0 ≤ x := hin.1
      simp only
      omega
    · obtain ⟨j, hj, hje⟩ := inv.maxXmem hne
      rcases max_cases s.maxX x with ⟨hmeq, hmle⟩ | ⟨hmeq, hmlt⟩
      · exact ⟨j, List.mem_append.mpr (Or.inl hj), by rw [hmeq, hje]⟩
      · exact ⟨flatIdx c.W x y, by simp, by rw [hmeq, hxN]⟩
  case maxYmem =>
    intro _
    by_cases hne : s.pixels = []
    · refine ⟨flatIdx c.W x y, by simp, ?_⟩
      rw [hyN, (inv.emptyB hne).2.2.2]
      have : 0 ≤ y := hin.2.2.1
      simp only
      omega
    · obtain ⟨j, hj, hje⟩ := inv.maxYmem hne
      rcases max_cases s.maxY y with ⟨hmeq, hmle⟩ | ⟨hmeq, hmlt⟩
      · exact ⟨j, List.mem_append.mpr (Or.inl hj), by rw [hmeq, hje]⟩
      · exact ⟨flatIdx c.W x y, by simp, by rw [hmeq, hyN]⟩
  case emptyB =>
    intro habs
    exact absurd habs (by simp)

/-- The contiguous loop preserves the invariant. -/
theorem fillLoop_inv (c : FillCtx) (sx sy : ℤ) (hseed : inBounds c.W c.H sx sy) :
    ∀ fuel s, FillInv c sx sy s → s.hitLimit = false →
      FillInv c sx sy (fillLoop c fuel s) := by
  intro fuel
  induction fuel with
  | zero => intro s inv _; exact inv
  | succ f ih =>
    intro s inv hl
    match hq : s.queue with
    | [] => simpa only [fillLoop, hq] using inv
    | (x, y) :: rest =>
      simp only [fillLoop, hq]
      by_cases hb : x < 0 ∨ (c.W : ℤ) ≤ x ∨ y < 0 ∨ (c.H : ℤ) ≤ y
      · rw [if_pos hb]
        refine ih _ (fillInv_skip c sx sy hseed s x y rest hq (Or.inl ?_) inv) hl
        unfold inBounds
        omega
      · rw [if_neg hb]
        push_neg at hb
        have hin : inBounds c.W c.H x y := ⟨by omega, by omega, by omega, by omega⟩
        by_cases hv : s.visited.getD (y.toNat * c.W + x.toNat) false
        · rw [if_pos hv]
          exact ih _ (fillInv_skip c sx sy hseed s x y rest hq (Or.inr hv) inv) hl
        · rw [if_neg hv]
          have hnv : s.visited.getD (flatIdx c.W x y) false = false := by
            simpa using hv
          by_cases hqual : qualifies c (y.toNat * c.W + x.toNat) = true
          · rw [if_pos hqual]
            by_cases hmax :
                maxHit c.maxPixels (s.pixels ++ [y.toNat * c.W + x.toNat]).length
            · rw [if_pos hmax]
              exact fillInv_accept c sx sy hseed s x y rest hq hin hnv hqual hl
                rest (Or.inr ⟨rfl, hmax⟩) true (Or.inr ⟨rfl, hmax⟩) inv
            · rw [if_neg (by simpa using hmax)]
              refine ih _ (fillInv_accept c sx sy hseed s x y rest hq hin hnv hqual hl
                ((x, y - 1) :: (x, y + 1) :: (x - 1, y) :: (x + 1, y) :: rest)
                (Or.inl rfl) s.hitLimit
                (Or.inl ⟨rfl, by simpa using hmax, rfl⟩) inv) hl
          · rw [if_neg hqual]
            exact ih _
              (fillInv_reject c sx sy hseed s x y rest hq hin (by simpa using hqual) inv) hl

/-- Connected-region reachability: pixels connected to the seed through
qualifying pixels by 4-neighbor steps.  This is the "region of
qualifying pixels" a contiguous fill grows. -/
inductive Reaches (c : FillCtx) (sx sy : ℤ) : ℤ → ℤ → Prop where
  | seed : inBounds c.W c.H sx sy → qualifies c (flatIdx c.W sx sy) = true →
      Reaches c sx sy sx sy
  | step : ∀ x y d, Reaches c sx sy x y → d ∈ dirs4 →
      inBounds c.W c.H (x + d.1) (y + d.2) →
      qualifies c (flatIdx c.W (x + d.1) (y + d.2)) = true →
      Reaches c sx sy (x + d.1) (y + d.2)

theorem reaches_inBounds {c : FillCtx} {sx sy x y : ℤ}
    (h : Reaches c sx sy x y) : inBounds c.W c.H x y := by
  cases h with
  | seed hin _ => exact hin
  | step _ _ _ _ _ hin _ => exact hin

theorem reaches_qual {c : FillCtx} {sx sy x y : ℤ}
    (h : Reaches c sx sy x y) : qualifies c (flatIdx c.W x y) = true := by
  cases h with
  | seed _ hq => exact hq
  | step _ _ _ _ _ _ hq => exact hq

/-- The invariant holds for the initial state. -/
theorem fillInv_init (c : FillCtx) (sx sy : ℤ) :
    FillInv c sx sy
      { queue := [(sx, sy)]
        visited := List.replicate (c.W * c.H) false
        mask := List.replicate (c.W * c.H) 0
        pixels := []
        minX := (c.W : ℤ)
        minY := (c.H : ℤ)
        maxX := 0
        maxY := 0
        hitLimit := false } := by
  constructor
  case vlen => simp
  case mlen => simp
  case nodup => simp
  case pixLt => simp
  case pixVis => simp
  case pixQual => simp
  case maskIff =>
    intro i
    rw [if_neg (List.not_mem_nil i)]
    by_cases hi : i < c.W * c.H
    · rw [List.getD_eq_getElem _ _ (by simpa using hi)]
      simp
    · rw [List.getD_eq_default _ _ (by simpa using hi)]
  case limitLt => intro _ k _ hk0; simp only [List.length_nil]; omega
  case limitEq => simp
  case seedQ => simp
  case closure => simp
  case visQualPix =>
    intro x y hin hvis _
    exfalso
    have hiLt : flatIdx c.W x y < c.W * c.H := flatIdx_lt hin
    simp only at hvis
    rw [List.getD_eq_getElem _ _ (by simpa using hiLt)] at hvis
    simp at hvis
  case minXle => simp
  case minYle => simp
  case maxXge => simp
  case maxYge => simp
  case minXmem => simp
  case minYmem => simp
  case maxXmem => simp
  case maxYmem => simp
  case emptyB => intro _; exact ⟨rfl, rfl, rfl, rfl⟩

/-- Completeness: once the queue has drained without hitting the cap,
every pixel of the seed's qualifying connected region was accepted. -/
theorem fill_complete (c : FillCtx) (sx sy : ℤ) (F : FillSt)
    (inv : FillInv c sx sy F) (hqe : F.queue = [])
    (hnl : F.hitLimit = false) :
    ∀ x y, Reaches c sx sy x y → flatIdx c.W x y ∈ F.pixels := by
  intro x y h
  induction h with
  | seed hin hq =>
    rcases inv.seedQ with hmem | hvis
    · rw [hqe] at hmem
      exact absurd hmem (List.not_mem_nil _)
    · exact inv.visQualPix sx sy hin hvis hq
  | step x' y' d hr hd hin hq ihr =>
    have hcl := inv.closure hnl x' y' (reaches_inBounds hr) ihr d hd hin
    rcases hcl with hmem | hvis
    · rw [hqe] at hmem
      exact absurd hmem (List.not_mem_nil _)
    · exact inv.visQualPix _ _ hin hvis hq

/-- Invariant for the global (non-contiguous) raster scan. -/
structure GlobalInv (c : FillCtx) (s : FillSt) : Prop where
  mlen : s.mask.length = c.W * c.H
  nodup : s.pixels.Nodup
  pixLt : ∀ i ∈ s.pixels, i < c.W * c.H
  pixQual : ∀ i ∈ s.pixels, qualifies c i = true
  maskIff : ∀ i, s.mask.getD i 0 = if i ∈ s.pixels then 255 else 0

/-- Main facts about the global raster scan: the invariant is preserved,
previously accepted pixels persist, and the scan either stops exactly at
the cap or accepts every qualifying index it visits. -/
theorem globalScan_spec (c : FillCtx) :
    ∀ is s, GlobalInv c s →
      (∀ i ∈ is, i < c.W * c.H) → is.Nodup → (∀ i ∈ s.pixels, i ∉ is) →
      (∀ k, c.maxPixels = some k → k ≠ 0 → s.pixels.length < k) →
      GlobalInv c (globalScan c is s) ∧
        (∀ i ∈ s.pixels, i ∈ (globalScan c is s).pixels) ∧
        ((∃ k, c.maxPixels = some k ∧ k ≠ 0 ∧ (globalScan c is s).pixels.length = k) ∨
          ((∀ k, c.maxPixels = some k → k ≠ 0 →
              (globalScan c is s).pixels.length < k) ∧
            ∀ i ∈ is, qualifies c i = true → i ∈ (globalScan c is s).pixels)) := by
  intro is
  induction is with
  | nil =>
    intro s ginv _ _ _ hlt
    refine ⟨ginv, fun i hi => hi, Or.inr ⟨hlt, by simp⟩⟩
  | cons i is' ih =>
    intro s ginv hlt1 hnd hdisj hlt
    have hiWH : i < c.W * c.H := hlt1 i (by simp)
    simp only [globalScan]
    by_cases hqual : qualifies c i = true
    · rw [if_pos hqual]
      have hinotmem : i ∉ s.pixels := fun hmem => hdisj i hmem (by simp)
      have hginv2 : GlobalInv c
          { s with
              mask := s.mask.set i 255
              pixels := s.pixels ++ [i]
              minX := min s.minX ((i % c.W : ℕ) : ℤ)
              minY := min s.minY ((i / c.W : ℕ) : ℤ)
              maxX := max s.maxX ((i % c.W : ℕ) : ℤ)
              maxY := max s.maxY ((i / c.W : ℕ) : ℤ) } := by
        constructor
        case mlen => simpa using ginv.mlen
        case nodup =>
          simp only
          rw [List.nodup_append]
          exact ⟨ginv.nodup, List.nodup_singleton _, by
            intro a ha hb
            rw [List.mem_singleton.mp hb] at ha
            exact hinotmem ha⟩
        case pixLt =>
          intro j hj
          rcases List.mem_append.mp hj with hj | hj
          · exact ginv.pixLt j hj
          · rw [List.mem_singleton.mp hj]; exact hiWH
        case pixQual =>
          intro j hj
          rcases List.mem_append.mp hj with hj | hj
          · exact ginv.pixQual j hj
          · rw [List.mem_singleton.mp hj]; exact hqual
        case maskIff =>
          intro j
          simp only
          by_cases hij : j = i
          · subst hij
            rw [getD_set_eq _ _ _ _ (by rw [ginv.mlen]; exact hiWH), if_pos (by simp)]
          · rw [getD_set_ne _ _ _ _ _ hij, ginv.maskIff j]
            have hiff : (j ∈ s.pixels ++ [i]) ↔ j ∈ s.pixels := by
              simp only [List.mem_append, List.mem_singleton]
              exact or_iff_left hij
            by_cases hjm : j ∈ s.pixels
            · rw [if_pos hjm, if_pos (hiff.mpr hjm)]
            · rw [if_neg hjm, if_neg (fun hc => hjm (hiff.mp hc))]
      by_cases hmax : maxHit c.maxPixels (s.pixels ++ [i]).length
      · rw [if_pos (by simpa using hmax)]
        refine ⟨hginv2, by intro j hj; simp [hj], Or.inl ?_⟩
        unfold maxHit at hmax
        match hmp : c.maxPixels with
        | none => rw [hmp] at hmax; simp at hmax
        | some k =>
          rw [hmp] at hmax
          simp only [Bool.and_eq_true, decide_eq_true_eq] at hmax
          refine ⟨k, rfl, hmax.1, ?_⟩
          have := hlt k hmp hmax.1
          simp only [List.length_append, List.length_singleton] at hmax ⊢
          omega
      · rw [if_neg (by simpa using hmax)]
        have hnd' : is'.Nodup := by
          rw [List.nodup_cons] at hnd; exact hnd.2
        have hrec := ih _ hginv2
          (fun j hj => hlt1 j (by simp [hj])) hnd'
          (by
            intro j hj hj'
            simp only [List.mem_append, List.mem_singleton] at hj
            rcases hj with hj | hj
            · exact hdisj j hj (by simp [hj'])
            · subst hj
              rw [List.nodup_cons] at hnd
              exact hnd.1 hj')
          (by
            intro k hk hk0
            unfold maxHit at hmax
            rw [hk] at hmax
            simp only [Bool.not_eq_true] at hmax
            simp only [Bool.and_eq_false_iff, decide_eq_false_iff_not] at hmax
            rcases hmax with hc | hc
            · exact absurd hk0 (by simpa using hc)
            · simp only [List.length_append, List.length_singleton] at hc ⊢
              omega)
        refine ⟨hrec.1, ?_, ?_⟩
        · intro j hj
          exact hrec.2.1 j (by simp [hj])
        · rcases hrec.2.2 with hcap | ⟨hlt2, hall⟩
          · exact Or.inl hcap
          · refine Or.inr ⟨hlt2, ?_⟩
            intro j hj hjq
            rcases List.mem_cons.mp hj with hj | hj
            · subst hj
              exact hrec.2.1 j (by simp)
            · exact hall j hj hjq
    · rw [if_neg hqual]
      have hnd' : is'.Nodup := by
        rw [List.nodup_cons] at hnd; exact hnd.2
      have hrec := ih _ ginv (fun j hj => hlt1 j (by simp [hj])) hnd'
        (fun j hj hj' => hdisj j hj (by simp [hj'])) hlt
      refine ⟨hrec.1, hrec.2.1, ?_⟩
      rcases hrec.2.2 with hcap | ⟨hlt2, hall⟩
      · exact Or.inl hcap
      · refine Or.inr ⟨hlt2, ?_⟩
        intro j hj hjq
        rcases List.mem_cons.mp hj with hj | hj
        · subst hj
          exact absurd hjq (by simpa using hqual)
        · exact hall j hj hjq

/-- Step of `Reaches` with the target written directly. -/
theorem reaches_step_to {c : FillCtx} {sx sy x y x' y' : ℤ} (d : ℤ × ℤ)
    (h : Reaches c sx sy x y) (hd : d ∈ dirs4)
    (hx' : x' = x + d.1) (hy' : y' = y + d.2)
    (hin : inBounds c.W c.H x' y')
    (hq : qualifies c (flatIdx c.W x' y') = true) :
    Reaches c sx sy x' y' := by
  subst hx'; subst hy'
  exact Reaches.step x y d h hd hin hq

/-- When every pixel qualifies, every in-bounds pixel is reachable from
an in-bounds seed (walk one axis at a time toward the seed). -/
theorem reaches_all (c : FillCtx) (sx sy : ℤ) (hseed : inBounds c.W c.H sx sy)
    (hq : ∀ i, i < c.W * c.H → qualifies c i = true) :
    ∀ x y, inBounds c.W c.H x y → Reaches c sx sy x y := by
  obtain ⟨hsx0, hsxW, hsy0, hsyH⟩ := hseed
  have hseed' : inBounds c.W c.H sx sy := ⟨hsx0, hsxW, hsy0, hsyH⟩
  have key : ∀ n x y, (x - sx).natAbs + (y - sy).natAbs = n →
      inBounds c.W c.H x y → Reaches c sx sy x y := by
    intro n
    induction n using Nat.strong_induction_on with
    | _ n ihn =>
      intro x y hn hin
      obtain ⟨hx0, hxW, hy0, hyH⟩ := hin
      have hin' : inBounds c.W c.H x y := ⟨hx0, hxW, hy0, hyH⟩
      by_cases hx : x = sx
      · by_cases hy : y = sy
        · subst hx; subst hy
          exact Reaches.seed hseed' (hq _ (flatIdx_lt hseed'))
        · by_cases hlt : sy < y
          · have hprev : Reaches c sx sy x (y - 1) := by
              apply ihn ((x - sx).natAbs + (y - 1 - sy).natAbs) (by omega) x (y - 1) rfl
              exact ⟨hx0, hxW, by omega, by omega⟩
            exact reaches_step_to (0, 1) hprev (by simp [dirs4])
              (by simp) (by simp) hin' (hq _ (flatIdx_lt hin'))
          · have hprev : Reaches c sx sy x (y + 1) := by
              apply ihn ((x - sx).natAbs + (y + 1 - sy).natAbs) (by omega) x (y + 1) rfl
              exact ⟨hx0, hxW, by omega, by omega⟩
            exact reaches_step_to (0, -1) hprev (by simp [dirs4])
              (by simp) (by simp) hin' (hq _ (flatIdx_lt hin'))
      · by_cases hlt : sx < x
        · have hprev : Reaches c sx sy (x - 1) y := by
            apply ihn ((x - 1 - sx).natAbs + (y - sy).natAbs) (by omega) (x - 1) y rfl
            exact ⟨by omega, by omega, hy0, hyH⟩
          exact reaches_step_to (1, 0) hprev (by simp [dirs4])
            (by simp) (by simp) hin' (hq _ (flatIdx_lt hin'))
        · have hprev : Reaches c sx sy (x + 1) y := by
            apply ihn ((x + 1 - sx).natAbs + (y - sy).natAbs) (by omega) (x + 1) y rfl
            exact ⟨by omega, by omega, hy0, hyH⟩
          exact reaches_step_to (-1, 0) hprev (by simp [dirs4])
            (by simp) (by simp) hin' (hq _ (flatIdx_lt hin'))
  intro x y hin
  exact key _ x y rfl hin

theorem getD_replicate_zero (n i : ℕ) : (List.replicate n (0 : ℕ)).getD i 0 = 0 := by
  by_cases hi : i < n
  · rw [List.getD_eq_getElem _ _ (by simpa using hi)]
    simp
  · rw [List.getD_eq_default _ _ (by simpa using hi)]

/-- Claim C6: for every buffer and every options record, a seed with
`x < 0 ∨ x ≥ W ∨ y < 0 ∨ y ≥ H` makes `floodFill` return immediately a
result with `pixelCount = 0`, an empty pixels list, `hitLimit = false`,
an all-zero mask and the zero rectangle as bounds; the function is
total, so no error is raised. -/
theorem floodFill_oob_seed_empty (img : ImageData) (startX startY : ℤ)
    (opts : FloodFillOptions)
    (hoob : startX < 0 ∨ (img.width : ℤ) ≤ startX ∨
      startY < 0 ∨ (img.height : ℤ) ≤ startY) :
    (floodFill img startX startY opts).pixelCount = 0 ∧
    (floodFill img startX startY opts).pixels = [] ∧
    (floodFill img startX startY opts).hitLimit = false ∧
    (∀ i, (floodFill img startX startY opts).mask.getD i 0 = 0) ∧
    (floodFill img startX startY opts).bounds = ⟨0, 0, 0, 0⟩ := by
  unfold floodFill
  rw [if_pos hoob]
  exact ⟨rfl, rfl, rfl, fun i => getD_replicate_zero _ _, rfl⟩

/-- Witness for C6 at a concrete out-of-bounds call. -/
theorem floodFill_oob_seed_empty_witness :
    ((5 : ℤ) < 0 ∨ ((1 : ℕ) : ℤ) ≤ 5 ∨ (0 : ℤ) < 0 ∨ ((1 : ℕ) : ℤ) ≤ 0) ∧
    (floodFill ⟨1, 1, fun _ => 9⟩ 5 0 ⟨10, true, none⟩).pixelCount = 0 ∧
    (floodFill ⟨1, 1, fun _ => 9⟩ 5 0 ⟨10, true, none⟩).pixels = [] ∧
    (floodFill ⟨1, 1, fun _ => 9⟩ 5 0 ⟨10, true, none⟩).hitLimit = false ∧
    (∀ i, (floodFill ⟨1, 1, fun _ => 9⟩ 5 0 ⟨10, true, none⟩).mask.getD i 0 = 0) ∧
    (floodFill ⟨1, 1, fun _ => 9⟩ 5 0 ⟨10, true, none⟩).bounds = ⟨0, 0, 0, 0⟩ := by
  refine ⟨by decide, ?_⟩
  exact floodFill_oob_seed_empty ⟨1, 1, fun _ => 9⟩ 5 0 ⟨10, true, none⟩ (by right; left; decide)

/-- Claim C10: every `SegmentationResult` returned by `floodFill`, for
any buffer, seed and options, is internally consistent: the mask holds
255 exactly at the flat indices in the pixels list and 0 everywhere
else, the pixels list has no duplicate index, and `pixelCount` equals
the length of the pixels list. -/
theorem floodFill_result_consistent (img : ImageData) (startX startY : ℤ)
    (opts : FloodFillOptions) :
    (∀ i, (floodFill img startX startY opts).mask.getD i 0 =
        if i ∈ (floodFill img startX startY opts).pixels then 255 else 0) ∧
    (floodFill img startX startY opts).pixels.Nodup ∧
    (floodFill img startX startY opts).pixelCount =
      (floodFill img startX startY opts).pixels.length := by
  unfold floodFill
  by_cases hoob : startX < 0 ∨ (img.width : ℤ) ≤ startX ∨
      startY < 0 ∨ (img.height : ℤ) ≤ startY
  · rw [if_pos hoob]
    refine ⟨fun i => ?_, List.nodup_nil, rfl⟩
    rw [if_neg (List.not_mem_nil i)]
    exact getD_replicate_zero _ _
  · rw [if_neg hoob]
    push_neg at hoob
    have hseed : inBounds img.width img.height startX startY :=
      ⟨by omega, by omega, by omega, by omega⟩
    by_cases hcont : opts.contiguous
    · simp only [hcont, if_true]
      have inv := fillLoop_inv (ctxOf img startX startY opts) startX startY hseed
        (5 * (img.width * img.height) + 2) (initSt img startX startY)
        (fillInv_init (ctxOf img startX startY opts) startX startY) rfl
      exact ⟨inv.maskIff, inv.nodup, trivial⟩
    · simp only [Bool.not_eq_true] at hcont
      simp only [hcont, Bool.false_eq_true, if_false]
      have ginv0 : GlobalInv (ctxOf img startX startY opts) (initSt img startX startY) := by
        constructor
        case mlen => simp [initSt, ctxOf]
        case nodup => simp [initSt]
        case pixLt => simp [initSt]
        case pixQual => simp [initSt]
        case maskIff =>
          intro i
          simp only [initSt, List.not_mem_nil, if_neg (List.not_mem_nil i)]
          exact getD_replicate_zero _ _
      have hspec := globalScan_spec (ctxOf img startX startY opts)
        (List.range (img.width * img.height)) (initSt img startX startY) ginv0
        (by intro i hi; simpa [ctxOf] using List.mem_range.mp hi)
        (List.nodup_range _)
        (by intro i hi; simp [initSt] at hi)
        (by intro k _ hk0; simp only [initSt, List.length_nil]; omega)
      exact ⟨hspec.1.maskIff, hspec.1.nodup, trivial⟩

theorem count_false_replicate (n : ℕ) :
    (List.replicate n false).count false = n := by
  induction n with
  | zero => simp
  | succ m ih => simp [List.replicate_succ, List.count_cons, ih]

/-- Claim C3: for every `W ≥ 1`, `H ≥ 1`, uniform-color RGBA buffer,
in-bounds seed, tolerance `≥ 0`, contiguous mode and no `maxPixels` cap,
`floodFill` selects all `W*H` pixels: `pixelCount = W*H`, every mask
entry below `W*H` is 255, bounds are `{x:0, y:0, width:W, height:H}`,
and `hitLimit = false`. -/
theorem floodFill_uniform_selects_all (img : ImageData) (startX startY : ℤ)
    (opts : FloodFillOptions)
    (hW : 1 ≤ img.width) (hH : 1 ≤ img.height)
    (huni : ∀ i, i < img.width * img.height →
      img.data (i * 4) = img.data 0 ∧ img.data (i * 4 + 1) = img.data 1 ∧
        img.data (i * 4 + 2) = img.data 2)
    (htol : 0 ≤ opts.tolerance) (hcont : opts.contiguous = true)
    (hmax : opts.maxPixels = none)
    (hseed : inBounds img.width img.height startX startY) :
    (floodFill img startX startY opts).pixelCount = img.width * img.height ∧
    (∀ i, i < img.width * img.height →
      (floodFill img startX startY opts).mask.getD i 0 = 255) ∧
    (floodFill img startX startY opts).bounds =
      ⟨0, 0, (img.width : ℤ), (img.height : ℤ)⟩ ∧
    (floodFill img startX startY opts).hitLimit = false := by
  have hsi : startY.toNat * img.width + startX.toNat < img.width * img.height :=
    flatIdx_lt hseed
  have hqall : ∀ i, i < (ctxOf img startX startY opts).W * (ctxOf img startX startY opts).H →
      qualifies (ctxOf img startX startY opts) i = true := by
    intro i hi
    unfold qualifies
    have e1 : (ctxOf img startX startY opts).data (i * 4) =
        (ctxOf img startX startY opts).seedR := by
      show img.data (i * 4) = img.data ((startY.toNat * img.width + startX.toNat) * 4)
      rw [(huni i hi).1, (huni _ hsi).1]
    have e2 : (ctxOf img startX startY opts).data (i * 4 + 1) =
        (ctxOf img startX startY opts).seedG := by
      show img.data (i * 4 + 1) = img.data ((startY.toNat * img.width + startX.toNat) * 4 + 1)
      rw [(huni i hi).2.1, (huni _ hsi).2.1]
    have e3 : (ctxOf img startX startY opts).data (i * 4 + 2) =
        (ctxOf img startX startY opts).seedB := by
      show img.data (i * 4 + 2) = img.data ((startY.toNat * img.width + startX.toNat) * 4 + 2)
      rw [(huni i hi).2.2, (huni _ hsi).2.2]
    rw [e1, e2, e3]
    have hz : colorDifferenceSq ((ctxOf img startX startY opts).seedR : ℤ)
        ((ctxOf img startX startY opts).seedG : ℤ)
        ((ctxOf img startX startY opts).seedB : ℤ)
        ((ctxOf img startX startY opts).seedR : ℤ)
        ((ctxOf img startX startY opts).seedG : ℤ)
        ((ctxOf img startX startY opts).seedB : ℤ) = 0 := by
      unfold colorDifferenceSq
      ring
    rw [hz]
    have hthr : 0 ≤ toleranceThreshold (ctxOf img startX startY opts).tolerance := by
      unfold toleranceThreshold
      have h1 : (0 : ℚ) ≤ (ctxOf img startX startY opts).tolerance / 255 := by
        have htol' : (0 : ℚ) ≤ (ctxOf img startX startY opts).tolerance := htol
        positivity
      have h2 : (0 : ℚ) ≤ (44167 / 100 : ℚ) := by norm_num
      exact mul_nonneg h1 h2
    unfold sqrtLeB
    have hthr' : ((0 : ℤ) : ℚ) ≤ toleranceThreshold (ctxOf img startX startY opts).tolerance *
        toleranceThreshold (ctxOf img startX startY opts).tolerance := by
      push_cast
      exact mul_nonneg hthr hthr
    rw [decide_eq_true hthr, decide_eq_true hthr']
    rfl
  have hnoob : ¬(startX < 0 ∨ (img.width : ℤ) ≤ startX ∨
      startY < 0 ∨ (img.height : ℤ) ≤ startY) := by
    obtain ⟨h1, h2, h3, h4⟩ := hseed
    omega
  have inv := fillLoop_inv (ctxOf img startX startY opts) startX startY hseed
    (5 * (img.width * img.height) + 2) (initSt img startX startY)
    (fillInv_init (ctxOf img startX startY opts) startX startY) rfl
  have hterm := fillLoop_terminal (ctxOf img startX startY opts)
    (5 * (img.width * img.height) + 2) (initSt img startX startY)
    (by simp [initSt, ctxOf])
    (by unfold fillMeasure; simp [initSt, count_false_replicate])
  have hnl : (fillLoop (ctxOf img startX startY opts)
      (5 * (img.width * img.height) + 2) (initSt img startX startY)).hitLimit = false := by
    by_contra hcon
    rw [Bool.not_eq_false] at hcon
    obtain ⟨k, hk, _, _⟩ := inv.limitEq hcon
    rw [show (ctxOf img startX startY opts).maxPixels = opts.maxPixels from rfl, hmax] at hk
    exact Option.noConfusion hk
  have hqe : (fillLoop (ctxOf img startX startY opts)
      (5 * (img.width * img.height) + 2) (initSt img startX startY)).queue = [] := by
    rcases hterm with h | h
    · exact h
    · rw [hnl] at h; exact Bool.noConfusion h
  have hmem : ∀ i, i < img.width * img.height →
      i ∈ (fillLoop (ctxOf img startX startY opts)
        (5 * (img.width * img.height) + 2) (initSt img startX startY)).pixels := by
    intro i hi
    obtain ⟨hinb, hflat⟩ := flatIdx_recompose (W := img.width) (H := img.height) i (by omega) hi
    have hr := reaches_all (ctxOf img startX startY opts) startX startY hseed hqall _ _ hinb
    have hdone := fill_complete (ctxOf img startX startY opts) startX startY _ inv hqe hnl _ _ hr
    rw [show (ctxOf img startX startY opts).W = img.width from rfl] at hdone
    rwa [hflat] at hdone
  have hlen : (fillLoop (ctxOf img startX startY opts)
      (5 * (img.width * img.height) + 2) (initSt img startX startY)).pixels.length =
      img.width * img.height := by
    have hset : (fillLoop (ctxOf img startX startY opts)
        (5 * (img.width * img.height) + 2) (initSt img startX startY)).pixels.toFinset =
        Finset.range (img.width * img.height) := by
      ext i
      simp only [List.mem_toFinset, Finset.mem_range]
      exact ⟨fun h => inv.pixLt i h, fun h => hmem i h⟩
    have hcard := List.toFinset_card_of_nodup inv.nodup
    rw [hset, Finset.card_range] at hcard
    omega
  have hWH : 0 < img.width * img.height := Nat.mul_pos (by omega) (by omega)
  have h0mem := hmem 0 hWH
  have hne : (fillLoop (ctxOf img startX startY opts)
      (5 * (img.width * img.height) + 2) (initSt img startX startY)).pixels ≠ [] := by
    intro h0
    rw [h0] at h0mem
    exact absurd h0mem (List.not_mem_nil 0)
  have hminX : (fillLoop (ctxOf img startX startY opts)
      (5 * (img.width * img.height) + 2) (initSt img startX startY)).minX = 0 := by
    have hle := inv.minXle 0 h0mem
    obtain ⟨j, _, hje⟩ := inv.minXmem hne
    simp only [Nat.zero_mod, Nat.cast_zero] at hle
    have : (0 : ℤ) ≤ ((j % (ctxOf img startX startY opts).W : ℕ) : ℤ) := by positivity
    omega
  have hminY : (fillLoop (ctxOf img startX startY opts)
      (5 * (img.width * img.height) + 2) (initSt img startX startY)).minY = 0 := by
    have hle := inv.minYle 0 h0mem
    obtain ⟨j, _, hje⟩ := inv.minYmem hne
    simp only [Nat.zero_div, Nat.cast_zero] at hle
    have : (0 : ℤ) ≤ ((j / (ctxOf img startX startY opts).W : ℕ) : ℤ) := by positivity
    omega
  have hiBR : (img.height - 1) * img.width + (img.width - 1) < img.width * img.height := by
    obtain ⟨W', hW'⟩ : ∃ W', img.width = W' + 1 := ⟨img.width - 1, by omega⟩
    obtain ⟨H', hH'⟩ : ∃ H', img.height = H' + 1 := ⟨img.height - 1, by omega⟩
    rw [hW', hH']
    simp only [Nat.add_sub_cancel]
    calc H' * (W' + 1) + W' < H' * (W' + 1) + (W' + 1) := by omega
      _ = (H' + 1) * (W' + 1) := by ring
      _ = (W' + 1) * (H' + 1) := by ring
  have hBRflat : flatIdx img.width ((img.width - 1 : ℕ) : ℤ) ((img.height - 1 : ℕ) : ℤ) =
      (img.height - 1) * img.width + (img.width - 1) := by
    unfold flatIdx
    simp [Int.toNat_ofNat]
  have hBRin : inBounds img.width img.height ((img.width - 1 : ℕ) : ℤ)
      ((img.height - 1 : ℕ) : ℤ) := by
    refine ⟨by positivity, ?_, by positivity, ?_⟩
    · exact_mod_cast Nat.sub_lt (by omega) (by omega)
    · exact_mod_cast Nat.sub_lt (by omega) (by omega)
  have hBRmem : (img.height - 1) * img.width + (img.width - 1) ∈
      (fillLoop (ctxOf img startX startY opts)
        (5 * (img.width * img.height) + 2) (initSt img startX startY)).pixels :=
    hmem _ hiBR
  have hBRmod : ((img.height - 1) * img.width + (img.width - 1)) % img.width =
      img.width - 1 := by
    have := flatIdx_mod hBRin
    rw [hBRflat] at this
    rw [this]
    simp [Int.toNat_ofNat]
  have hBRdiv : ((img.height - 1) * img.width + (img.width - 1)) / img.width =
      img.height - 1 := by
    have := flatIdx_div hBRin
    rw [hBRflat] at this
    rw [this]
    simp [Int.toNat_ofNat]
  have hmaxX : (fillLoop (ctxOf img startX startY opts)
      (5 * (img.width * img.height) + 2) (initSt img startX startY)).maxX =
      ((img.width - 1 : ℕ) : ℤ) := by
    have hge := inv.maxXge _ hBRmem
    rw [show ((ctxOf img startX startY opts).W) = img.width from rfl] at hge
    rw [hBRmod] at hge
    obtain ⟨j, _, hje⟩ := inv.maxXmem hne
    have hjlt : j % (ctxOf img startX startY opts).W < img.width :=
      Nat.mod_lt j (show 0 < (ctxOf img startX startY opts).W from by
        show 0 < img.width; omega)
    have hle2 : ((j % (ctxOf img startX startY opts).W : ℕ) : ℤ) ≤ ((img.width - 1 : ℕ) : ℤ) := by
      exact_mod_cast Nat.le_sub_one_of_lt hjlt
    rw [hje]
    exact le_antisymm hle2 (hje ▸ hge)
  have hmaxY : (fillLoop (ctxOf img startX startY opts)
      (5 * (img.width * img.height) + 2) (initSt img startX startY)).maxY =
      ((img.height - 1 : ℕ) : ℤ) := by
    have hge := inv.maxYge _ hBRmem
    rw [show ((ctxOf img startX startY opts).W) = img.width from rfl] at hge
    rw [hBRdiv] at hge
    obtain ⟨j, _, hje⟩ := inv.maxYmem hne
    have hjlt : j / (ctxOf img startX startY opts).W < img.height := by
      apply Nat.div_lt_of_lt_mul
      calc j < img.width * img.height := inv.pixLt j (by assumption)
        _ = (ctxOf img startX startY opts).W * img.height := rfl
    have hle2 : ((j / (ctxOf img startX startY opts).W : ℕ) : ℤ) ≤ ((img.height - 1 : ℕ) : ℤ) := by
      exact_mod_cast Nat.le_sub_one_of_lt hjlt
    rw [hje]
    exact le_antisymm hle2 (hje ▸ hge)
  unfold floodFill
  rw [if_neg hnoob]
  simp only [hcont, if_true]
  refine ⟨hlen, ?_, ?_, hnl⟩
  · intro i hi
    rw [inv.maskIff i, if_pos (hmem i hi)]
  · have hwid : ((img.width - 1 : ℕ) : ℤ) - 0 + 1 = (img.width : ℤ) := by
      have : (1 : ℕ) ≤ img.width := hW
      push_cast [Nat.cast_sub this]
      ring
    have hhei : ((img.height - 1 : ℕ) : ℤ) - 0 + 1 = (img.height : ℤ) := by
      have : (1 : ℕ) ≤ img.height := hH
      push_cast [Nat.cast_sub this]
      ring
    rw [hminX, hminY, hmaxX, hmaxY]
    rw [Rectangle.mk.injEq]
    exact ⟨rfl, rfl, hwid, hhei⟩

/-- Witness for C3 at a concrete 2x2 uniform buffer seeded at (0,0). -/
theorem floodFill_uniform_selects_all_witness :
    ((0 : ℚ) ≤ 0 ∧ inBounds 2 2 0 0) ∧
    (floodFill ⟨2, 2, fun _ => 7⟩ 0 0 ⟨0, true, none⟩).pixelCount = 2 * 2 ∧
    (floodFill ⟨2, 2, fun _ => 7⟩ 0 0 ⟨0, true, none⟩).hitLimit = false := by
  have h := floodFill_uniform_selects_all ⟨2, 2, fun _ => 7⟩ 0 0 ⟨0, true, none⟩
    (by decide) (by decide) (by intro i _; exact ⟨rfl, rfl, rfl⟩)
    (le_refl 0) rfl rfl (by decide)
  exact ⟨⟨le_refl 0, by decide⟩, h.1, h.2.2.2⟩

/-- Claim C4: for every buffer, in-bounds seed and `maxPixels = k` with
`k ≥ 1`, if the region of qualifying pixels (the qualifying pixels
4-connected to the seed in contiguous mode; all qualifying pixels in
global mode) holds more than `k` pixels, then `floodFill` returns
exactly `pixelCount = k` and `hitLimit = true`. -/
theorem floodFill_cap_exact (img : ImageData) (startX startY : ℤ)
    (opts : FloodFillOptions) (k : ℕ)
    (hseed : inBounds img.width img.height startX startY)
    (hk : opts.maxPixels = some k) (hk1 : 1 ≤ k)
    (hregion :
      (opts.contiguous = true ∧ ∃ S : Finset (ℤ × ℤ), k < S.card ∧
        ∀ p ∈ S, Reaches (ctxOf img startX startY opts) startX startY p.1 p.2) ∨
      (opts.contiguous = false ∧ ∃ S : Finset ℕ, k < S.card ∧
        ∀ i ∈ S, i < img.width * img.height ∧
          qualifies (ctxOf img startX startY opts) i = true)) :
    (floodFill img startX startY opts).pixelCount = k ∧
    (floodFill img startX startY opts).hitLimit = true := by
  have hnoob : ¬(startX < 0 ∨ (img.width : ℤ) ≤ startX ∨
      startY < 0 ∨ (img.height : ℤ) ≤ startY) := by
    obtain ⟨h1, h2, h3, h4⟩ := hseed
    omega
  have hkc : (ctxOf img startX startY opts).maxPixels = some k := hk
  unfold floodFill
  rw [if_neg hnoob]
  rcases hregion with ⟨hcont, S, hcard, hS⟩ | ⟨hcont, S, hcard, hS⟩
  · simp only [hcont, if_true]
    have inv := fillLoop_inv (ctxOf img startX startY opts) startX startY hseed
      (5 * (img.width * img.height) + 2) (initSt img startX startY)
      (fillInv_init (ctxOf img startX startY opts) startX startY) rfl
    by_cases hhit : (fillLoop (ctxOf img startX startY opts)
        (5 * (img.width * img.height) + 2) (initSt img startX startY)).hitLimit = true
    · obtain ⟨k', hk', _, hlen⟩ := inv.limitEq hhit
      rw [hkc] at hk'
      obtain rfl := Option.some.inj hk'
      exact ⟨hlen, hhit⟩
    · exfalso
      rw [Bool.not_eq_true] at hhit
      have hterm := fillLoop_terminal (ctxOf img startX startY opts)
        (5 * (img.width * img.height) + 2) (initSt img startX startY)
        (by simp [initSt, ctxOf])
        (by unfold fillMeasure; simp [initSt, count_false_replicate])
      have hqe : (fillLoop (ctxOf img startX startY opts)
          (5 * (img.width * img.height) + 2) (initSt img startX startY)).queue = [] := by
        rcases hterm with h | h
        · exact h
        · rw [hhit] at h; exact Bool.noConfusion h
      have hcomp := fill_complete (ctxOf img startX startY opts) startX startY _
        inv hqe hhit
      have himg : S.image (fun p => flatIdx (ctxOf img startX startY opts).W p.1 p.2) ⊆
          (fillLoop (ctxOf img startX startY opts)
            (5 * (img.width * img.height) + 2) (initSt img startX startY)).pixels.toFinset := by
        intro i hi
        rw [Finset.mem_image] at hi
        obtain ⟨p, hp, rfl⟩ := hi
        rw [List.mem_toFinset]
        exact hcomp p.1 p.2 (hS p hp)
      have hinj : Set.InjOn (fun p => flatIdx (ctxOf img startX startY opts).W p.1 p.2)
          (S : Set (ℤ × ℤ)) := by
        intro p hp q hq he
        have hpin := reaches_inBounds (hS p (by simpa using hp))
        have hqin := reaches_inBounds (hS q (by simpa using hq))
        obtain ⟨hx, hy⟩ := flatIdx_inj hpin hqin he
        exact Prod.ext hx hy
      have hc1 : (S.image (fun p => flatIdx (ctxOf img startX startY opts).W p.1 p.2)).card =
          S.card := Finset.card_image_of_injOn hinj
      have hc2 := Finset.card_le_card himg
      have hc3 := List.toFinset_card_of_nodup inv.nodup
      have hlt := inv.limitLt hhit k hkc (by omega)
      omega
  · simp only [hcont, Bool.false_eq_true, if_false]
    have ginv0 : GlobalInv (ctxOf img startX startY opts) (initSt img startX startY) := by
      constructor
      case mlen => simp [initSt, ctxOf]
      case nodup => simp [initSt]
      case pixLt => simp [initSt]
      case pixQual => simp [initSt]
      case maskIff =>
        intro i
        simp only [initSt, List.not_mem_nil, if_neg (List.not_mem_nil i)]
        exact getD_replicate_zero _ _
    have hspec := globalScan_spec (ctxOf img startX startY opts)
      (List.range (img.width * img.height)) (initSt img startX startY) ginv0
      (by intro i hi; simpa [ctxOf] using List.mem_range.mp hi)
      (List.nodup_range _)
      (by intro i hi; simp [initSt] at hi)
      (by intro k' _ hk0; simp only [initSt, List.length_nil]; omega)
    rcases hspec.2.2 with ⟨k', hk', _, hlen⟩ | ⟨hlt2, hall⟩
    · rw [hkc] at hk'
      obtain rfl := Option.some.inj hk'
      refine ⟨hlen, ?_⟩
      rw [hk]
      unfold globalHitLimit
      simp [hlen]
    · exfalso
      have hsub : S ⊆ (globalScan (ctxOf img startX startY opts)
          (List.range (img.width * img.height)) (initSt img startX startY)).pixels.toFinset := by
        intro i hi
        rw [List.mem_toFinset]
        exact hall i (List.mem_range.mpr (hS i hi).1) (hS i hi).2
      have hc2 := Finset.card_le_card hsub
      have hc3 := List.toFinset_card_of_nodup hspec.1.nodup
      have hlt := hlt2 k hkc (by omega)
      omega

/-- Witness for C4: a 1x2 uniform buffer capped at one pixel. -/
theorem floodFill_cap_exact_witness :
    (inBounds 1 2 0 0 ∧ 1 ≤ 1) ∧
    (floodFill ⟨1, 2, fun _ => 5⟩ 0 0 ⟨0, true, some 1⟩).pixelCount = 1 ∧
    (floodFill ⟨1, 2, fun _ => 5⟩ 0 0 ⟨0, true, some 1⟩).hitLimit = true := by
  have hq0 : qualifies (ctxOf ⟨1, 2, fun _ => 5⟩ 0 0 ⟨0, true, some 1⟩) 0 = true := by
    simp [qualifies, ctxOf, colorDifferenceSq, sqrtLeB, toleranceThreshold]
  have hq1 : qualifies (ctxOf ⟨1, 2, fun _ => 5⟩ 0 0 ⟨0, true, some 1⟩) 1 = true := by
    simp [qualifies, ctxOf, colorDifferenceSq, sqrtLeB, toleranceThreshold]
  have r00 : Reaches (ctxOf ⟨1, 2, fun _ => 5⟩ 0 0 ⟨0, true, some 1⟩) 0 0 0 0 :=
    Reaches.seed (by decide) hq0
  have r01 : Reaches (ctxOf ⟨1, 2, fun _ => 5⟩ 0 0 ⟨0, true, some 1⟩) 0 0 0 1 :=
    reaches_step_to (0, 1) r00 (by simp [dirs4]) (by norm_num) (by norm_num)
      (by decide) (by show qualifies _ (flatIdx 1 0 1) = true; exact hq1)
  have h := floodFill_cap_exact ⟨1, 2, fun _ => 5⟩ 0 0 ⟨0, true, some 1⟩ 1
    (by decide) rfl (le_refl 1)
    (Or.inl ⟨rfl, ({(0, 0), (0, 1)} : Finset (ℤ × ℤ)), by decide, by
      intro p hp
      fin_cases hp
      · exact r00
      · exact r01⟩)
  exact ⟨⟨by decide, le_refl 1⟩, h⟩

/-- Claim C5 (code evidence): the contiguous fill pops its work list
with `Array.prototype.pop`, i.e. last-in-first-out, so the traversal is
depth-first, not the breadth-first FIFO order the comments and the
specification describe.  On a uniform 3x3 buffer seeded at the center
(flat index 4) the accepted order is `[4, 1, 0, 3, 6, 7, 8, 5, 2]`: the
second accepted pixel is `(1,0)` (index 1), where a FIFO traversal
would accept `(2,1)` (index 5, the first-enqueued neighbor) second. -/
theorem floodFill_traversal_is_lifo :
    (floodFill ⟨3, 3, fun _ => 100⟩ 1 1 ⟨0, true, none⟩).pixels =
      [4, 1, 0, 3, 6, 7, 8, 5, 2] := by
  simp [floodFill, fillLoop, initSt, ctxOf, qualifies, colorDifferenceSq,
    sqrtLeB, toleranceThreshold, maxHit]

/-!  ## Edge detection pipeline (ImageProcessing.ts lines 17-165)

`Uint8ClampedArray` stores round half to even and clamp to `[0,255]`
(`u8store`).  Decimal literals of the source are carried as exact
rationals.  -/

/-- Round half to even, as the `Uint8ClampedArray` conversion does. -/
def roundHalfEven (q : ℚ) : ℤ :=
  let f := ⌊q⌋
  let r := q - f
  if r < 1 / 2 then f
  else if 1 / 2 < r then f + 1
  else if f % 2 = 0 then f else f + 1

/-- A store into a `Uint8ClampedArray`: clamp to `[0,255]`, round half
to even. -/
def u8store (q : ℚ) : ℕ :=
  (max 0 (min 255 (roundHalfEven q))).toNat

/-- Luma of the RGB bytes at data offset `di`
(`0.299*R + 0.587*G + 0.114*B`, source line 72). -/
def lumaAt (img : ImageData) (di : ℕ) : ℚ :=
  (299 / 1000) * img.data di + (587 / 1000) * img.data (di + 1) +
    (114 / 1000) * img.data (di + 2)

/-- `toGrayscale` (source lines 67-80): every color channel becomes the
luma byte, alpha is copied. -/
def toGrayscale (img : ImageData) : ImageData :=
  ⟨img.width, img.height, fun j =>
    if j < img.width * img.height * 4 then
      if j % 4 = 3 then img.data j
      else u8store (lumaAt img ((j / 4) * 4))
    else 0⟩

/-- Total absolute weight of a kernel (`kSum`, source lines 27-34). -/
def kernelAbsSum (kernel : List (List ℚ)) : ℚ :=
  (kernel.map (fun row => (row.map abs).sum)).sum

/-- The inner accumulation of `convolve` for channel `ch` of pixel
`(x,y)`: edge-clamped sampling, kernel-weighted sum (source lines
43-54). -/
def convSum (img : ImageData) (kernel : List (List ℚ)) (x y ch : ℕ) : ℚ :=
  ((List.range kernel.length).map (fun (ky : ℕ) =>
    ((List.range kernel.length).map (fun (kx : ℕ) =>
      (img.data
          (((min ((img.height : ℤ) - 1)
                (max 0 ((y : ℤ) + (ky : ℤ) - ((kernel.length / 2 : ℕ) : ℤ)))).toNat *
              img.width +
            (min ((img.width : ℤ) - 1)
                (max 0 ((x : ℤ) + (kx : ℤ) - ((kernel.length / 2 : ℕ) : ℤ)))).toNat) *
            4 + ch) : ℚ) *
        ((kernel.getD ky []).getD kx 0))).sum)).sum

/-- `convolve` (source lines 17-65): per color channel, the clamped,
normalized kernel response; alpha copied. -/
def convolve (img : ImageData) (kernel : List (List ℚ)) (normalize : Bool) : ImageData :=
  let kSum : ℚ :=
    if normalize then (if kernelAbsSum kernel = 0 then 1 else kernelAbsSum kernel) else 1
  ⟨img.width, img.height, fun j =>
    if j < img.width * img.height * 4 then
      if j % 4 = 3 then img.data j
      else
        u8store (min 255 (max 0 (convSum img kernel ((j / 4) % img.width)
          ((j / 4) / img.width) (j % 4) / kSum)))
    else 0⟩

def SOBEL_X : List (List ℚ) := [[-1, 0, 1], [-2, 0, 2], [-1, 0, 1]]

def SOBEL_Y : List (List ℚ) := [[-1, -2, -1], [0, 0, 0], [1, 2, 1]]

structure EdgeDetectionOptions where
  threshold : ℚ

/-- `computeGradientMagnitude` (source lines 138-159): per pixel, 255
where `sqrt(dx*dx + dy*dy) > threshold`, else 0; alpha 255.  The float
comparison is embedded exactly through `sqrtGtB` (see `sqrtGtB_iff`). -/
def computeGradientMagnitude (gx gy : ImageData) (threshold : ℚ) : ImageData :=
  ⟨gx.width, gx.height, fun j =>
    if j < gx.width * gx.height * 4 then
      if j % 4 = 3 then 255
      else
        if sqrtGtB ((gx.data ((j / 4) * 4) : ℚ) * (gx.data ((j / 4) * 4) : ℚ) +
            (gy.data ((j / 4) * 4) : ℚ) * (gy.data ((j / 4) * 4) : ℚ)) threshold
        then 255 else 0
    else 0⟩

/-- `applySobel` (source lines 161-166). -/
def applySobel (img : ImageData) (options : EdgeDetectionOptions) : ImageData :=
  let gray := toGrayscale img
  computeGradientMagnitude (convolve gray SOBEL_X false) (convolve gray SOBEL_Y false)
    options.threshold

/-!  ## Cost map (Pathfinding.ts lines 67-95)  -/

structure CostMap where
  width : ℕ
  height : ℕ
  costs : ℕ → ℚ

/-- `createCostMapFromEdges` (Pathfinding.ts lines 73-88): per pixel,
`(255 - edgeStrength)/255` when `invert` (the default), else
`edgeStrength/255`, where `edgeStrength` is the red byte. -/
def createCostMapFromEdges (edgeMap : ImageData) (invert : Bool) : CostMap :=
  ⟨edgeMap.width, edgeMap.height, fun i =>
    if i < edgeMap.width * edgeMap.height then
      if invert then (255 - (edgeMap.data (i * 4) : ℚ)) / 255
      else (edgeMap.data (i * 4) : ℚ) / 255
    else 0⟩

/-- A 2x1 buffer: left pixel black, right pixel gray value 50.  At the
right pixel the (clamped) Sobel responses are `gx = 200`, `gy = 0`. -/
def stripeImg : ImageData := ⟨2, 1, fun j => if j / 4 = 1 then 50 else 0⟩

theorem stripe_gray_zero : (toGrayscale stripeImg).data 0 = 0 := by
  norm_num [toGrayscale, lumaAt, u8store, roundHalfEven, stripeImg]

theorem stripe_gray_four : (toGrayscale stripeImg).data 4 = 50 := by
  norm_num [toGrayscale, lumaAt, u8store, roundHalfEven, stripeImg]
  decide

theorem stripe_gray_width : (toGrayscale stripeImg).width = 2 := rfl

theorem stripe_gray_height : (toGrayscale stripeImg).height = 1 := rfl

theorem stripe_convSum_x : convSum (toGrayscale stripeImg) SOBEL_X 1 0 0 = 200 := by
  simp only [convSum, SOBEL_X, stripe_gray_width, stripe_gray_height,
    List.length_cons, List.length_nil]
  norm_num [List.range_succ, stripe_gray_zero, stripe_gray_four]

theorem stripe_convSum_y : convSum (toGrayscale stripeImg) SOBEL_Y 1 0 0 = 0 := by
  simp only [convSum, SOBEL_Y, stripe_gray_width, stripe_gray_height,
    List.length_cons, List.length_nil]
  norm_num [List.range_succ, stripe_gray_zero, stripe_gray_four]

theorem stripe_gx : (convolve (toGrayscale stripeImg) SOBEL_X false).data 4 = 200 := by
  have h : (convolve (toGrayscale stripeImg) SOBEL_X false).data 4 =
      u8store (min 255 (max 0 (convSum (toGrayscale stripeImg) SOBEL_X 1 0 0 / 1))) := by
    simp only [convolve, stripe_gray_width, stripe_gray_height]
    norm_num
  rw [h, stripe_convSum_x]
  norm_num [u8store, roundHalfEven]
  decide

theorem stripe_gy : (convolve (toGrayscale stripeImg) SOBEL_Y false).data 4 = 0 := by
  have h : (convolve (toGrayscale stripeImg) SOBEL_Y false).data 4 =
      u8store (min 255 (max 0 (convSum (toGrayscale stripeImg) SOBEL_Y 1 0 0 / 1))) := by
    simp only [convolve, stripe_gray_width, stripe_gray_height]
    norm_num
  rw [h, stripe_convSum_y]
  norm_num [u8store, roundHalfEven]

/-- Claim C1 (counterexample): on `stripeImg` with Sobel threshold 100,
the Sobel responses at the right pixel are `gx = 200`, `gy = 0`, and the
cost-map entry is `0`, whereas the claimed continuous formula
`1 - clamp(sqrt(gx^2+gy^2), 0, 255)/255` evaluates to
`1 - 200/255 = 11/51 ≠ 0`: the cost is a thresholded binary value, not
a continuous function of the gradient magnitude. -/
theorem sobel_cost_not_gradient_counterexample :
    (convolve (toGrayscale stripeImg) SOBEL_X false).data 4 = 200 ∧
    (convolve (toGrayscale stripeImg) SOBEL_Y false).data 4 = 0 ∧
    (createCostMapFromEdges (applySobel stripeImg ⟨100⟩) true).costs 1 = 0 ∧
    (1 : ℝ) - min 255 (max 0 (Real.sqrt ((200 : ℝ) ^ 2 + (0 : ℝ) ^ 2))) / 255 ≠
      ((createCostMapFromEdges (applySobel stripeImg ⟨100⟩) true).costs 1 : ℝ) := by
  have hsq : Real.sqrt ((200 : ℝ) ^ 2 + (0 : ℝ) ^ 2) = 200 := by
    rw [show ((200 : ℝ) ^ 2 + (0 : ℝ) ^ 2) = 200 ^ 2 by norm_num]
    exact Real.sqrt_sq (by norm_num)
  have h2 : (applySobel stripeImg ⟨100⟩).data 4 = 255 := by
    simp only [applySobel, computeGradientMagnitude,
      show (convolve (toGrayscale stripeImg) SOBEL_X false).width = 2 from rfl,
      show (convolve (toGrayscale stripeImg) SOBEL_X false).height = 1 from rfl]
    norm_num [stripe_gx, stripe_gy, sqrtGtB]
  have hcost : (createCostMapFromEdges (applySobel stripeImg ⟨100⟩) true).costs 1 = 0 := by
    have h1 : (createCostMapFromEdges (applySobel stripeImg ⟨100⟩) true).costs 1 =
        (255 - ((applySobel stripeImg ⟨100⟩).data 4 : ℚ)) / 255 := by
      simp only [createCostMapFromEdges,
        show (applySobel stripeImg ⟨100⟩).width = 2 from rfl,
        show (applySobel stripeImg ⟨100⟩).height = 1 from rfl]
      norm_num
    rw [h1, h2]
    norm_num
  refine ⟨stripe_gx, stripe_gy, hcost, ?_⟩
  rw [hcost, hsq]
  norm_num

/-- Claim C1 (amended): with the Sobel method, the cost field built by
`createCostMapFromEdges` over `applySobel` output is the *binary*
inversion of the thresholded magnitude: at every pixel `i < W*H` the
cost equals `0` when `sqrt(gx^2+gy^2) > threshold` and `1` otherwise,
`gx`/`gy` being the clamped Sobel byte responses of the luma channel —
not the continuous value `1 - clamp(sqrt(gx^2+gy^2),0,255)/255`. -/
theorem sobel_cost_map_binary (img : ImageData) (options : EdgeDetectionOptions)
    (i : ℕ) (hi : i < img.width * img.height) :
    (createCostMapFromEdges (applySobel img options) true).costs i =
      if sqrtGtB
          (((convolve (toGrayscale img) SOBEL_X false).data (i * 4) : ℚ) *
              ((convolve (toGrayscale img) SOBEL_X false).data (i * 4) : ℚ) +
            ((convolve (toGrayscale img) SOBEL_Y false).data (i * 4) : ℚ) *
              ((convolve (toGrayscale img) SOBEL_Y false).data (i * 4) : ℚ))
          options.threshold
      then 0 else 1 := by
  have hi4 : i * 4 < img.width * img.height * 4 := by omega
  have hdiv : i * 4 / 4 = i := by omega
  have hmod : i * 4 % 4 = 0 := by omega
  simp only [createCostMapFromEdges, applySobel, computeGradientMagnitude]
  simp only [show (convolve (toGrayscale img) SOBEL_X false).width = img.width from rfl,
    show (convolve (toGrayscale img) SOBEL_X false).height = img.height from rfl]
  rw [if_pos hi, if_pos hi4, if_neg (show ¬(i * 4 % 4 = 3) from by omega), hdiv]
  simp only [reduceIte]
  split <;> norm_num

/-- Witness for the amended C1 on a 1x1 buffer. -/
theorem sobel_cost_map_binary_witness :
    0 < (1 : ℕ) * 1 ∧
    (createCostMapFromEdges (applySobel ⟨1, 1, fun _ => 0⟩ ⟨30⟩) true).costs 0 =
      if sqrtGtB
          (((convolve (toGrayscale ⟨1, 1, fun _ => 0⟩) SOBEL_X false).data (0 * 4) : ℚ) *
              ((convolve (toGrayscale ⟨1, 1, fun _ => 0⟩) SOBEL_X false).data (0 * 4) : ℚ) +
            ((convolve (toGrayscale ⟨1, 1, fun _ => 0⟩) SOBEL_Y false).data (0 * 4) : ℚ) *
              ((convolve (toGrayscale ⟨1, 1, fun _ => 0⟩) SOBEL_Y false).data (0 * 4) : ℚ))
          (30 : ℚ)
      then 0 else 1 := by
  exact ⟨by decide, sobel_cost_map_binary ⟨1, 1, fun _ => 0⟩ ⟨30⟩ 0 (by decide)⟩

/-!
### Path utilities: simplifyPath (Pathfinding.ts, lines 361-404)

`simplifyPath` runs the Ramer-Douglas-Peucker algorithm.  The JS helper
`perpendicularDistance` returns `Math.sqrt(dSq)`; the only uses of the
distances are the comparisons `dist > maxDist` (both sides square roots of
nonnegative rationals, and the square root is strictly monotone there, so
comparing the squares is exactly equivalent) and `maxDist > epsilon`
(modelled exactly by the `sqrtGtB` oracle).  We therefore carry the squared
distances.  The JS test `mag === 0` holds iff the squared magnitude is `0`.
The recursive helper `rdp` is modelled with explicit fuel; `none` means the
recursion did not terminate within the given fuel.
-/

structure Point where
  x : ℚ
  y : ℚ
deriving DecidableEq

/-- Square of `perpendicularDistance(point, lineStart, lineEnd)`. -/
def perpDistSq (point lineStart lineEnd : Point) : ℚ :=
  let dx := lineEnd.x - lineStart.x
  let dy := lineEnd.y - lineStart.y
  let magSq := dx * dx + dy * dy
  if magSq = 0 then
    (point.x - lineStart.x) ^ 2 + (point.y - lineStart.y) ^ 2
  else
    let u := ((point.x - lineStart.x) * dx + (point.y - lineStart.y) * dy) / magSq
    let closestX := lineStart.x + u * dx
    let closestY := lineStart.y + u * dy
    (point.x - closestX) ^ 2 + (point.y - closestY) ^ 2

/-- The `for (let i = start + 1; i < end; i++)` scan of `rdp`, returning
`(maxDistSq, maxIndex)`; initial values `maxDist = 0`, `maxIndex = start`. -/
def rdpScan (points : List Point) (s e : ℕ) : ℚ × ℕ :=
  (List.range (e - (s + 1))).foldl
    (fun acc k =>
      let i := s + 1 + k
      let d := perpDistSq (points.getD i ⟨0, 0⟩) (points.getD s ⟨0, 0⟩)
        (points.getD e ⟨0, 0⟩)
      if acc.1 < d then (d, i) else acc)
    (0, s)

/-- The recursive `rdp(points, start, end, result)`; instead of mutating
`result` it returns the list of points pushed, in push order. -/
def rdp (epsilon : ℚ) (points : List Point) : ℕ → ℕ → ℕ → Option (List Point)
  | 0, _, _ => none
  | fuel + 1, s, e =>
    let m := rdpScan points s e
    if sqrtGtB m.1 epsilon then
      match rdp epsilon points fuel s m.2, rdp epsilon points fuel m.2 e with
      | some l, some r => some (l ++ points.getD m.2 ⟨0, 0⟩ :: r)
      | _, _ => none
    else
      some []

/-- `simplifyPath(path, epsilon)`.  The recursion depth of `rdp` is bounded by
the interval length, so fuel `path.length + 1` is never the reason for a
`none`: `none` means the JS recursion runs forever. -/
def simplifyPath (path : List Point) (epsilon : ℚ) : Option (List Point) :=
  if path.length ≤ 2 then some path
  else
    match rdp epsilon path (path.length + 1) 0 (path.length - 1) with
    | some mid => some (path.getD 0 ⟨0, 0⟩ :: (mid ++ [path.getD (path.length - 1) ⟨0, 0⟩]))
    | none => none

theorem rdpScan_self (points : List Point) (s : ℕ) :
    rdpScan points s s = (0, s) := by
  have h0 : s - (s + 1) = 0 := by omega
  simp [rdpScan, h0]

theorem rdp_self_none (epsilon : ℚ) (h : epsilon < 0) (points : List Point) (s : ℕ) :
    ∀ fuel, rdp epsilon points fuel s s = none := by
  intro fuel
  induction fuel with
  | zero => rfl
  | succ n ih =>
    simp only [rdp, rdpScan_self]
    rw [if_pos (by simp [sqrtGtB, h])]
    simp only [ih]

/-- C8: refuted as stated.  For the three-point collinear path
`[(0,0),(1,0),(2,0)]` and `epsilon = -1`, the interior scan finds maximum
distance `0 > -1` with `maxIndex` still equal to `start`, so `rdp` calls
itself on the unchanged interval `(0,0)` and the JS recursion never
terminates (no fuel suffices); `simplifyPath` returns no result at all,
rather than a list preserving the endpoints. -/
theorem simplifyPath_preserves_endpoints_counterexample :
    simplifyPath [⟨0, 0⟩, ⟨1, 0⟩, ⟨2, 0⟩] (-1) = none ∧
    ∀ fuel, rdp (-1) [⟨0, 0⟩, ⟨1, 0⟩, ⟨2, 0⟩] fuel 0 2 = none := by
  have hscan : rdpScan [⟨0, 0⟩, ⟨1, 0⟩, ⟨2, 0⟩] 0 2 = (0, 0) := by
    norm_num [rdpScan, perpDistSq, List.range_succ, List.getD]
  have hall : ∀ fuel, rdp (-1) [⟨0, 0⟩, ⟨1, 0⟩, ⟨2, 0⟩] fuel 0 2 = none := by
    intro fuel
    cases fuel with
    | zero => rfl
    | succ n =>
      simp only [rdp, hscan]
      rw [if_pos (by norm_num [sqrtGtB])]
      simp only [rdp_self_none (-1) (by norm_num) _ 0 n]
  refine ⟨?_, hall⟩
  simp only [simplifyPath, show ([⟨0, 0⟩, ⟨1, 0⟩, ⟨2, 0⟩] : List Point).length = 3 from rfl]
  norm_num
  rw [hall 4]

theorem rdpScan_cases (points : List Point) (s e : ℕ) :
    rdpScan points s e = (0, s) ∨
    (s < (rdpScan points s e).2 ∧ (rdpScan points s e).2 < e) := by
  unfold rdpScan
  have key : ∀ (l : List ℕ) (acc : ℚ × ℕ),
      (∀ k ∈ l, k < e - (s + 1)) →
      (acc = (0, s) ∨ (s < acc.2 ∧ acc.2 < e)) →
      (l.foldl
          (fun acc k =>
            let i := s + 1 + k
            let d := perpDistSq (points.getD i ⟨0, 0⟩) (points.getD s ⟨0, 0⟩)
              (points.getD e ⟨0, 0⟩)
            if acc.1 < d then (d, i) else acc)
          acc = (0, s) ∨
        (s < (l.foldl
            (fun acc k =>
              let i := s + 1 + k
              let d := perpDistSq (points.getD i ⟨0, 0⟩) (points.getD s ⟨0, 0⟩)
                (points.getD e ⟨0, 0⟩)
              if acc.1 < d then (d, i) else acc)
            acc).2 ∧
          (l.foldl
            (fun acc k =>
              let i := s + 1 + k
              let d := perpDistSq (points.getD i ⟨0, 0⟩) (points.getD s ⟨0, 0⟩)
                (points.getD e ⟨0, 0⟩)
              if acc.1 < d then (d, i) else acc)
            acc).2 < e)) := by
    intro l
    induction l with
    | nil => intro acc _ hacc; simpa using hacc
    | cons a t ih =>
      intro acc hmem hacc
      simp only [List.foldl_cons]
      apply ih
      · intro k hk; exact hmem k (List.mem_cons_of_mem a hk)
      · by_cases hlt : acc.1 < perpDistSq (points.getD (s + 1 + a) ⟨0, 0⟩)
            (points.getD s ⟨0, 0⟩) (points.getD e ⟨0, 0⟩)
        · right
          have ha := hmem a (List.mem_cons_self a t)
          simp only [if_pos hlt]
          omega
        · simp only [if_neg hlt]
          exact hacc
  exact key (List.range (e - (s + 1))) (0, s)
    (fun k hk => List.mem_range.mp hk) (Or.inl rfl)

theorem rdp_total (epsilon : ℚ) (he : 0 ≤ epsilon) (points : List Point) :
    ∀ fuel s e, e - s < fuel →
    ∃ r, rdp epsilon points fuel s e = some r ∧ r.length ≤ e - s - 1 := by
  intro fuel
  induction fuel with
  | zero => intro s e h; omega
  | succ n ih =>
    intro s e h
    by_cases hg : sqrtGtB (rdpScan points s e).1 epsilon = true
    · have hpos : 0 < (rdpScan points s e).1 := by
        simp only [sqrtGtB, Bool.or_eq_true, decide_eq_true_eq] at hg
        rcases hg with hg | hg
        · linarith
        · nlinarith
      rcases rdpScan_cases points s e with hm | ⟨h1, h2⟩
      · rw [hm] at hpos; norm_num at hpos
      · obtain ⟨l, hl, hll⟩ := ih s (rdpScan points s e).2 (by omega)
        obtain ⟨r, hr, hrl⟩ := ih (rdpScan points s e).2 e (by omega)
        refine ⟨l ++ points.getD (rdpScan points s e).2 ⟨0, 0⟩ :: r, ?_, ?_⟩
        · simp only [rdp]
          rw [if_pos hg, hl, hr]
        · simp only [List.length_append, List.length_cons]
          omega
    · refine ⟨[], ?_, by simp⟩
      simp only [rdp]
      rw [if_neg hg]

/-- C8 (amended): for every non-empty path and every NONNEGATIVE epsilon,
simplifyPath terminates and returns a list whose first element equals
`path[0]` exactly, whose last element equals `path[path.length - 1]` exactly,
and whose number of points is at most that of the input.  (For negative
epsilon the recursion can diverge; see the counterexample.) -/
theorem simplifyPath_preserves_endpoints (path : List Point) (epsilon : ℚ)
    (hne : path ≠ []) (he : 0 ≤ epsilon) :
    ∃ r, simplifyPath path epsilon = some r ∧ r ≠ [] ∧
      r.head? = path.head? ∧ r.getLast? = path.getLast? ∧
      r.length ≤ path.length := by
  by_cases hlen : path.length ≤ 2
  · exact ⟨path, by simp [simplifyPath, hlen], hne, rfl, rfl, le_refl _⟩
  · obtain ⟨mid, hmid, hml⟩ :=
      rdp_total epsilon he path (path.length + 1) 0 (path.length - 1) (by omega)
    refine ⟨path.getD 0 ⟨0, 0⟩ :: (mid ++ [path.getD (path.length - 1) ⟨0, 0⟩]),
      ?_, by simp, ?_, ?_, ?_⟩
    · simp only [simplifyPath]
      rw [if_neg hlen, hmid]
    · cases path with
      | nil => exact absurd rfl hne
      | cons a t => simp [List.getD]
    · rw [show (path.getD 0 ⟨0, 0⟩ :: (mid ++ [path.getD (path.length - 1) ⟨0, 0⟩]))
          = (path.getD 0 ⟨0, 0⟩ :: mid) ++ [path.getD (path.length - 1) ⟨0, 0⟩]
          from by simp]
      rw [List.getLast?_concat]
      rw [List.getLast?_eq_getElem?]
      rw [List.getD_eq_getElem?_getD]
      cases hg : path[path.length - 1]? with
      | none =>
        have : path.length - 1 < path.length := by omega
        rw [List.getElem?_eq_none_iff] at hg
        omega
      | some v => simp
    · simp only [List.length_cons, List.length_append, List.length_nil]
      omega

theorem simplifyPath_preserves_endpoints_witness :
    ([⟨0, 0⟩, ⟨3, 1⟩, ⟨6, 0⟩] : List Point) ≠ [] ∧ (0 : ℚ) ≤ 2 ∧
    ∃ r, simplifyPath [⟨0, 0⟩, ⟨3, 1⟩, ⟨6, 0⟩] 2 = some r ∧ r ≠ [] ∧
      r.head? = ([⟨0, 0⟩, ⟨3, 1⟩, ⟨6, 0⟩] : List Point).head? ∧
      r.getLast? = ([⟨0, 0⟩, ⟨3, 1⟩, ⟨6, 0⟩] : List Point).getLast? ∧
      r.length ≤ ([⟨0, 0⟩, ⟨3, 1⟩, ⟨6, 0⟩] : List Point).length :=
  ⟨by simp, by norm_num,
    simplifyPath_preserves_endpoints [⟨0, 0⟩, ⟨3, 1⟩, ⟨6, 0⟩] 2 (by simp) (by norm_num)⟩

/-!
### Lasso engine sessions (LassoEngine.ts)

We embed the lasso session state machine: the fields of `LassoState` that
the session operations read or write (`isActive`, `currentPath`,
`previewPath`, and the lazy cursor's `innerPosition`, which is the default
anchor point of `addAnchor`).  `LassoAnchor`'s `id` (a fresh uuid) and
`timestamp` (`performance.now()`) are external nondeterminism inspected by
no computation and are omitted; so are the display-only `metrics`, and
`LassoPath.totalLength`, a sum of square roots that no claim mentions.
`this.computePath` (a pathfinding call) is passed to `completeLasso` as a
function parameter; `completeLasso(false)` never invokes it. -/

/-- `Math.round`: round half toward positive infinity. -/
def jsRound (q : ℚ) : ℤ := ⌊q + 1 / 2⌋

structure LassoAnchor where
  point : Point
  strength : ℚ
  isEdgeSnapped : Bool
  edgeQuality : ℚ
deriving DecidableEq

structure LassoPath where
  points : List Point
  anchors : List LassoAnchor
  isClosed : Bool
deriving DecidableEq

structure LassoSt where
  isActive : Bool
  currentPath : Option LassoPath
  previewPath : List Point
  innerPosition : Point
deriving DecidableEq

/-- `getEdgeQualityAt` (LassoEngine.ts lines 203-227): average of
`1 - cost` over the in-bounds 7x7 neighborhood of the rounded point. -/
def getEdgeQualityAt (costMap : Option CostMap) (point : Point) : ℚ :=
  match costMap with
  | none => 0
  | some cm =>
    let x := jsRound point.x
    let y := jsRound point.y
    if x < 0 ∨ (cm.width : ℤ) ≤ x ∨ y < 0 ∨ (cm.height : ℤ) ≤ y then 0
    else
      let cells := (List.range 7).flatMap (fun dy =>
        (List.range 7).map (fun dx => (x + dx - 3, y + dy - 3)))
      let inb := cells.filter (fun c =>
        decide (0 ≤ c.1) && decide (c.1 < (cm.width : ℤ)) &&
        decide (0 ≤ c.2) && decide (c.2 < (cm.height : ℤ)))
      let totalQuality := (inb.map (fun c =>
        1 - cm.costs (c.2.toNat * cm.width + c.1.toNat))).sum
      if 0 < inb.length then totalQuality / inb.length else 0

/-- `createAnchor` (lines 192-201). -/
def createAnchor (costMap : Option CostMap) (point : Point) (strength : ℚ) :
    LassoAnchor :=
  let edgeQuality := getEdgeQualityAt costMap point
  ⟨point, strength, decide (1 / 2 < edgeQuality), edgeQuality⟩

/-- `startLasso` (lines 177-190).  Note it does not clear `previewPath`. -/
def startLasso (costMap : Option CostMap) (startPoint : Point) (st : LassoSt) :
    LassoSt :=
  { st with
    isActive := true
    currentPath := some ⟨[startPoint], [createAnchor costMap startPoint 1], false⟩
    innerPosition := startPoint }

/-- `addAnchor` (lines 394-416).  `point || this.state.lazyCursor.innerPosition`:
a supplied point is an object, hence truthy.  Note the preview path is
committed (minus its first point) but NOT cleared. -/
def addAnchor (costMap : Option CostMap) (elastic : Bool) (point : Option Point)
    (st : LassoSt) : LassoSt :=
  match st.currentPath with
  | none => st
  | some cp =>
    let anchorPoint := point.getD st.innerPosition
    let newPoints :=
      if 0 < st.previewPath.length then cp.points ++ st.previewPath.drop 1
      else cp.points
    let strength : ℚ := if elastic then 0 else 1
    let anchor := createAnchor costMap anchorPoint strength
    let newCp := { cp with points := newPoints, anchors := cp.anchors ++ [anchor] }
    { st with currentPath := some newCp }

/-- `completeLasso` (lines 418-447); returns the JS return value and the
state after the call. -/
def completeLasso (computePath : Point → Point → List Point) (autoClose : Bool)
    (st : LassoSt) : Option LassoPath × LassoSt :=
  match st.isActive, st.currentPath with
  | true, some cp =>
    let points1 :=
      if 0 < st.previewPath.length then cp.points ++ st.previewPath.drop 1
      else cp.points
    let closed :=
      if autoClose && decide (2 < points1.length) then
        let first := points1.getD 0 ⟨0, 0⟩
        let last := points1.getD (points1.length - 1) ⟨0, 0⟩
        let closingPath := computePath last first
        let points2 :=
          if 0 < closingPath.length then points1 ++ closingPath.drop 1
          else points1
        { cp with points := points2, isClosed := true }
      else { cp with points := points1 }
    (some closed, { st with isActive := false, currentPath := none, previewPath := [] })
  | _, _ => (none, st)

/-- C9: refuted as stated.  Starting a lasso at (0,0) and immediately calling
addAnchor (before any cursor movement, so the preview path is empty) leaves
the committed path at exactly the single start point while the anchor count
reaches two; complete(false) then yields isClosed = false but
points.length = 1, not >= 2. -/
theorem lasso_two_anchor_counterexample :
    ((completeLasso (fun _ _ => []) false
        (addAnchor none false (some ⟨5, 5⟩)
          (startLasso none ⟨0, 0⟩ ⟨false, none, [], ⟨0, 0⟩⟩))).1.map
      (fun p => (p.anchors.length, p.isClosed, p.points.length))) =
      some (2, false, 1) := by
  simp [completeLasso, addAnchor, startLasso, createAnchor, getEdgeQualityAt]

/-- C9 (amended): in an active session whose current path has exactly two
anchors after the addAnchor call, IF the preview path holds at least two
points (as it does whenever the cursor has moved, since a computed preview
starts at the previous anchor), then addAnchor followed immediately by
complete(false) yields a LassoPath with isClosed = false and
points.length >= 2.  With an empty preview the points.length bound fails
(see the counterexample). -/
theorem lasso_two_anchor_complete (computePath : Point → Point → List Point)
    (costMap : Option CostMap) (elastic : Bool) (pt : Option Point)
    (st : LassoSt) (cp : LassoPath)
    (hact : st.isActive = true) (hcp : st.currentPath = some cp)
    (hanch : cp.anchors.length = 1) (hclosed : cp.isClosed = false)
    (hpts : cp.points ≠ []) (hprev : 2 ≤ st.previewPath.length) :
    ∃ p, (completeLasso computePath false
        (addAnchor costMap elastic pt st)).1 = some p ∧
      p.anchors.length = 2 ∧ p.isClosed = false ∧ 2 ≤ p.points.length := by
  have hlen : 0 < st.previewPath.length := by omega
  have hp1 : 0 < cp.points.length := List.length_pos.mpr hpts
  simp only [addAnchor, hcp, completeLasso, hact, if_pos hlen, Bool.false_and,
    Bool.false_eq_true, if_false]
  refine ⟨_, rfl, ?_, ?_, ?_⟩
  · simp [hanch]
  · simpa using hclosed
  · simp only [List.length_append, List.length_drop]
    omega

theorem lasso_two_anchor_complete_witness :
    (⟨true, some ⟨[⟨0, 0⟩], [⟨⟨0, 0⟩, 1, false, 0⟩], false⟩,
        [⟨0, 0⟩, ⟨1, 1⟩], ⟨1, 1⟩⟩ : LassoSt).isActive = true ∧
    ∃ p, (completeLasso (fun _ _ => []) false
        (addAnchor none false none
          ⟨true, some ⟨[⟨0, 0⟩], [⟨⟨0, 0⟩, 1, false, 0⟩], false⟩,
            [⟨0, 0⟩, ⟨1, 1⟩], ⟨1, 1⟩⟩)).1 = some p ∧
      p.anchors.length = 2 ∧ p.isClosed = false ∧ 2 ≤ p.points.length :=
  ⟨rfl,
    lasso_two_anchor_complete (fun _ _ => []) none false none
      ⟨true, some ⟨[⟨0, 0⟩], [⟨⟨0, 0⟩, 1, false, 0⟩], false⟩,
        [⟨0, 0⟩, ⟨1, 1⟩], ⟨1, 1⟩⟩
      ⟨[⟨0, 0⟩], [⟨⟨0, 0⟩, 1, false, 0⟩], false⟩
      rfl rfl (by simp) rfl (by simp) (by simp)⟩

/-!
### Pathfinding (Pathfinding.ts): MinHeap, dijkstra, astar

Modeling conventions for this section:
* `cursorInfluence` is fixed to `0` and omitted from the options: a nonzero
  cursor term adds `ci/100 * sqrt(d) * 0.01` into the stored distances,
  which a `ℚ`-valued embedding cannot carry exactly.  Claim C2 fixes
  `cursorInfluence = 0`; C7's amendment below is likewise stated for
  `cursorInfluence = 0` calls.  With `cursorInfluence = 0` the A* heuristic
  multiplier `1 + ci/100` is exactly `1`.
* Stored distances (`dist`/`gScore`) are then exact rationals.  Heap
  priorities are `g` (dijkstra) or `g + sqrt(n)` (astar, `n` the squared
  euclidean distance to the end); they are represented exactly by the pair
  `Prio = (a, n)` denoting `a + sqrt(n)`, and compared exactly by
  `sqrtLeAdd` (proved correct against `Real.sqrt` below).
* `Math.SQRT2`, the diagonal move cost, is a double-precision CONSTANT in
  the source; it is modelled by the exact rational value of that double,
  `SQRT2J = 6369051672525773 / 2^52`.
* `Math.atan2` is applied only to the 8 grid directions, giving angles
  `k*π/4`; `prevDir` stores `k : ℤ` (with `none` for the initial `-1`
  sentinel, which compares `< 0`).  The direction-continuity cost
  `dcc * min(|Δ|π/4, 2π - |Δ|π/4) / π = dcc * min(|Δ|, 8 - |Δ|) / 4`
  is exactly rational.
* `Math.round` is `jsRound`, JS `Math.floor(k/100000)` is `Int.fdiv`, and
  the JS remainder `k % 100000` (truncated, sign of the dividend) is
  `Int.tmod`.
* JS `Map` is an association list where `set` prepends and `get` takes the
  first match; the `while` loops carry fuel.  The path-reconstruction loop
  can genuinely diverge (C7); there `none` means divergence, and its fuel
  `prev.length + 2` exceeds any terminating chain's length.
-/

/-- `a + Real.sqrt n` represented exactly (`n ≥ 0` in all uses). -/
structure Prio where
  a : ℚ
  n : ℚ
deriving DecidableEq

/-- Decides `Real.sqrt p ≤ c + Real.sqrt q` for `p, q ≥ 0`, by squaring. -/
def sqrtLeAdd (p c q : ℚ) : Bool :=
  if 0 ≤ c then
    decide (p - q - c * c ≤ 0) ||
      decide ((p - q - c * c) * (p - q - c * c) ≤ 4 * (c * c) * q)
  else
    if q < c * c then false
    else
      decide (p - q - c * c ≤ 0) &&
        decide (4 * (c * c) * q ≤ (p - q - c * c) * (p - q - c * c))

/-- `x.priority <= y.priority` of the source, exactly. -/
def prioLeB (x y : Prio) : Bool := sqrtLeAdd x.n (y.a - x.a) y.n

/-- `x.priority < y.priority` of the source, exactly. -/
def prioLtB (x y : Prio) : Bool := !(prioLeB y x)

structure PFNode where
  x : ℤ
  y : ℤ
  prevDir : Option ℤ
deriving DecidableEq

structure HeapEntry where
  priority : Prio
  value : PFNode
deriving DecidableEq

def hdummy : HeapEntry := ⟨⟨0, 0⟩, ⟨0, 0, none⟩⟩

/-- `MinHeap.bubbleUp`; the index strictly decreases (`(i-1)/2 < i` for
`i > 0`), so fuel `index + 1` always suffices. -/
def bubbleUp : ℕ → List HeapEntry → ℕ → List HeapEntry
  | 0, h, _ => h
  | fuel + 1, h, index =>
    if index = 0 then h
    else
      let parent := (index - 1) / 2
      if prioLeB (h.getD parent hdummy).priority (h.getD index hdummy).priority then h
      else
        bubbleUp fuel ((h.set parent (h.getD index hdummy)).set index (h.getD parent hdummy))
          parent

/-- `MinHeap.bubbleDown`; the index strictly increases and is bounded by the
length, so fuel `length + 1` always suffices. -/
def bubbleDown : ℕ → List HeapEntry → ℕ → List HeapEntry
  | 0, h, _ => h
  | fuel + 1, h, index =>
    let left := 2 * index + 1
    let right := 2 * index + 2
    let s1 :=
      if left < h.length &&
          prioLtB (h.getD left hdummy).priority (h.getD index hdummy).priority then left
      else index
    let s2 :=
      if right < h.length &&
          prioLtB (h.getD right hdummy).priority (h.getD s1 hdummy).priority then right
      else s1
    if s2 = index then h
    else bubbleDown fuel ((h.set s2 (h.getD index hdummy)).set index (h.getD s2 hdummy)) s2

/-- `MinHeap.push`. -/
def heapPush (h : List HeapEntry) (p : Prio) (v : PFNode) : List HeapEntry :=
  let h1 := h ++ [⟨p, v⟩]
  bubbleUp h1.length h1 (h1.length - 1)

/-- `MinHeap.pop`: returns the popped value and the remaining heap. -/
def heapPop (h : List HeapEntry) : Option (PFNode × List HeapEntry) :=
  match h with
  | [] => none
  | mn :: _ =>
    let last := h.getD (h.length - 1) hdummy
    let h1 := h.dropLast
    let h2 := if 0 < h1.length then bubbleDown (h1.length + 1) (h1.set 0 last) 0 else h1
    some (mn.value, h2)

/-- JS `Map.get`. -/
def mapGet {α : Type} : List (ℤ × α) → ℤ → Option α
  | [], _ => none
  | (k, v) :: t, q => if q = k then some v else mapGet t q

/-- JS `Map.set`: the new binding shadows any old one. -/
def mapSet {α : Type} (m : List (ℤ × α)) (k : ℤ) (v : α) : List (ℤ × α) :=
  (k, v) :: m

def pointKey (x y : ℤ) : ℤ := y * 100000 + x

/-- The exact rational value of the double constant `Math.SQRT2`. -/
def SQRT2J : ℚ := 6369051672525773 / 4503599627370496

/-- `getNeighbors` (source lines 104-124): `(nx, ny, moveCost)` triples in
source order. -/
def getNeighbors (x y : ℤ) (mode : ℕ) : List (ℤ × ℤ × ℚ) :=
  if mode = 4 then
    [(x, y - 1, 1), (x + 1, y, 1), (x, y + 1, 1), (x - 1, y, 1)]
  else
    [(x, y - 1, 1), (x + 1, y - 1, SQRT2J), (x + 1, y, 1), (x + 1, y + 1, SQRT2J),
      (x, y + 1, 1), (x - 1, y + 1, SQRT2J), (x - 1, y, 1), (x - 1, y - 1, SQRT2J)]

/-- `Math.atan2(dy, dx)` on the 8 grid directions, in units of `π/4`. -/
def dirOf (dx dy : ℤ) : ℤ :=
  if dx = 1 ∧ dy = 0 then 0
  else if dx = 1 ∧ dy = 1 then 1
  else if dx = 0 ∧ dy = 1 then 2
  else if dx = -1 ∧ dy = 1 then 3
  else if dx = -1 ∧ dy = 0 then 4
  else if dx = -1 ∧ dy = -1 then -3
  else if dx = 0 ∧ dy = -1 then -2
  else -1

structure PathfindingOptions where
  neighborMode : ℕ
  directionContinuityCost : ℚ
  maxIterations : ℕ
deriving DecidableEq

structure PathfindingResult where
  path : List (ℤ × ℤ)
  cost : WithTop ℚ
  iterations : ℕ
  success : Bool
deriving DecidableEq

structure PFCtx where
  cm : CostMap
  mode : ℕ
  dcc : ℚ
  sx : ℤ
  sy : ℤ
  ex : ℤ
  ey : ℤ

structure PFState where
  heap : List HeapEntry
  dist : List (ℤ × ℚ)
  fscore : List (ℤ × Prio)
  prev : List (ℤ × ℤ)
  iterations : ℕ
deriving DecidableEq

/-- One neighbor of the `for (const neighbor of neighbors)` body, shared by
`dijkstra` and `astar`: the two differ only in the pushed priority and the
extra `fScore` bookkeeping, selected by `useAstar`.  `edgeCost` inlines
`getCostAt` after the bounds check, where its `Infinity` branch is
unreachable. -/
def relaxOne (useAstar : Bool) (c : PFCtx) (currentKey : ℤ) (cx cy : ℤ)
    (pd : Option ℤ) (s : PFState) (nbr : ℤ × ℤ × ℚ) : PFState :=
  let nx := nbr.1
  let ny := nbr.2.1
  let moveCost := nbr.2.2
  if nx < 0 ∨ (c.cm.width : ℤ) ≤ nx ∨ ny < 0 ∨ (c.cm.height : ℤ) ≤ ny then s
  else
    let nk := pointKey nx ny
    let edgeCost := c.cm.costs (ny.toNat * c.cm.width + nx.toNat)
    let k := dirOf (nx - cx) (ny - cy)
    let dirCost : ℚ :=
      match pd with
      | none => 0
      | some p =>
        if 0 ≤ p ∧ 0 < c.dcc then c.dcc * ((min |k - p| (8 - |k - p|) : ℤ) : ℚ) / 4
        else 0
    let total := (mapGet s.dist currentKey).getD 0 + moveCost * (edgeCost + 1 / 100) + dirCost
    let doUpd :=
      match mapGet s.dist nk with
      | none => true
      | some d => decide (total < d)
    if doUpd then
      let hn : ℚ := (((nx - c.ex) ^ 2 + (ny - c.ey) ^ 2 : ℤ) : ℚ)
      let prio := if useAstar then Prio.mk total hn else Prio.mk total 0
      { s with
        dist := mapSet s.dist nk total
        prev := mapSet s.prev nk currentKey
        fscore := if useAstar then mapSet s.fscore nk (Prio.mk total hn) else s.fscore
        heap := heapPush s.heap prio ⟨nx, ny, some k⟩ }
    else s

/-- The `while (key !== undefined && key !== startKey)` reconstruction loop;
returns the `unshift`ed points (the caller prepends the start point).
`none` is fuel exhaustion, i.e. the JS loop diverges. -/
def reconstructPath : ℕ → List (ℤ × ℤ) → ℤ → ℤ → List (ℤ × ℤ) → Option (List (ℤ × ℤ))
  | 0, _, _, _, _ => none
  | fuel + 1, prev, startKey, key, path =>
    if key = startKey then some path
    else
      let pt := (Int.tmod key 100000, Int.fdiv key 100000)
      match mapGet prev key with
      | some k2 => reconstructPath fuel prev startKey k2 (pt :: path)
      | none => some (pt :: path)

/-- The main `while (!heap.isEmpty() && iterations < maxIterations)` loop;
the fuel is the number of still-allowed iterations.  `none` means the JS
call diverges (inside path reconstruction). -/
def pfLoop (useAstar : Bool) (c : PFCtx) : ℕ → PFState → Option PathfindingResult
  | 0, s => some ⟨[], ⊤, s.iterations, false⟩
  | fuel + 1, s =>
    match heapPop s.heap with
    | none => some ⟨[], ⊤, s.iterations, false⟩
    | some (cur, h2) =>
      let iters := s.iterations + 1
      let currentKey := pointKey cur.x cur.y
      if currentKey = pointKey c.ex c.ey then
        match reconstructPath (s.prev.length + 2) s.prev (pointKey c.sx c.sy)
            (pointKey c.ex c.ey) [] with
        | some tail =>
          some ⟨(c.sx, c.sy) :: tail,
            ((mapGet s.dist (pointKey c.ex c.ey)).getD 0 : ℚ), iters, true⟩
        | none => none
      else
        let s2 := (getNeighbors cur.x cur.y c.mode).foldl
          (relaxOne useAstar c currentKey cur.x cur.y cur.prevDir)
          { s with heap := h2, iterations := iters }
        pfLoop useAstar c fuel s2

/-- `dijkstra` (source lines 150-248), with `cursorInfluence = 0`. -/
def dijkstra (start endPt : Point) (costMap : CostMap)
    (options : PathfindingOptions) : Option PathfindingResult :=
  let sx := jsRound start.x
  let sy := jsRound start.y
  let ex := jsRound endPt.x
  let ey := jsRound endPt.y
  let startKey := pointKey sx sy
  pfLoop false ⟨costMap, options.neighborMode, options.directionContinuityCost, sx, sy, ex, ey⟩
    options.maxIterations
    ⟨[⟨⟨0, 0⟩, ⟨sx, sy, none⟩⟩], [(startKey, 0)], [], [], 0⟩

/-- `astar` (source lines 258-355), with `cursorInfluence = 0`; the start is
pushed with priority `fScore(start) = 0 + sqrt((ex-sx)^2+(ey-sy)^2)`. -/
def astar (start endPt : Point) (costMap : CostMap)
    (options : PathfindingOptions) : Option PathfindingResult :=
  let sx := jsRound start.x
  let sy := jsRound start.y
  let ex := jsRound endPt.x
  let ey := jsRound endPt.y
  let startKey := pointKey sx sy
  let n0 : ℚ := (((ex - sx) ^ 2 + (ey - sy) ^ 2 : ℤ) : ℚ)
  pfLoop true ⟨costMap, options.neighborMode, options.directionContinuityCost, sx, sy, ex, ey⟩
    options.maxIterations
    ⟨[⟨⟨0, n0⟩, ⟨sx, sy, none⟩⟩], [(startKey, 0)], [(startKey, ⟨0, n0⟩)], [], 0⟩

set_option maxHeartbeats 4000000 in
/-- C2: refuted.  On the flat 3x2 field of all-zero costs with
`cursorInfluence = 0`, identical options (`neighborMode = 4`,
`directionContinuityCost = 1/2`, `maxIterations = 14`), start `(0,1)` and
end `(2,0)`, both dijkstra and astar succeed, yet dijkstra returns total
cost `3/100` while astar returns `7/25`: the direction-continuity cost
makes the two algorithms' costs differ even on a flat field. -/
theorem dijkstra_astar_flat_equal_cost_counterexample :
    (dijkstra ⟨0, 1⟩ ⟨2, 0⟩ ⟨3, 2, fun _ => 0⟩ ⟨4, 1 / 2, 14⟩).map
        (fun r => (r.cost, r.success)) = some (((3 / 100 : ℚ) : WithTop ℚ), true) ∧
    (astar ⟨0, 1⟩ ⟨2, 0⟩ ⟨3, 2, fun _ => 0⟩ ⟨4, 1 / 2, 14⟩).map
        (fun r => (r.cost, r.success)) = some (((7 / 25 : ℚ) : WithTop ℚ), true) ∧
    ((3 / 100 : ℚ) : WithTop ℚ) ≠ ((7 / 25 : ℚ) : WithTop ℚ) := by
  refine ⟨?_, ?_, by rw [ne_eq, WithTop.coe_inj]; norm_num⟩
  · norm_num [dijkstra, pfLoop, heapPop, heapPush, bubbleUp, bubbleDown, relaxOne,
      reconstructPath, mapGet, mapSet, pointKey, getNeighbors, dirOf, prioLeB, prioLtB,
      sqrtLeAdd, hdummy, jsRound]
  · norm_num [astar, pfLoop, heapPop, heapPush, bubbleUp, bubbleDown, relaxOne,
      reconstructPath, mapGet, mapSet, pointKey, getNeighbors, dirOf, prioLeB, prioLtB,
      sqrtLeAdd, hdummy, jsRound]

set_option maxHeartbeats 4000000 in
/-- C7: refuted.  `pointKey(x,y) = y*100000 + x` aliases the rounded start
`(99999, 0)` and the rounded end `(-1, 1)` to the same key `99999`, so the
very first pop (the start node) matches the end key: both dijkstra and
astar return `success = true` with the one-point path `[(99999, 0)]`,
whose last point is NOT the rounded end `(-1, 1)`. -/
theorem pathfinding_success_endpoint_counterexample :
    dijkstra ⟨99999, 0⟩ ⟨-1, 1⟩ ⟨1, 1, fun _ => 0⟩ ⟨4, 0, 1⟩ =
      some ⟨[(99999, 0)], ((0 : ℚ) : WithTop ℚ), 1, true⟩ ∧
    astar ⟨99999, 0⟩ ⟨-1, 1⟩ ⟨1, 1, fun _ => 0⟩ ⟨4, 0, 1⟩ =
      some ⟨[(99999, 0)], ((0 : ℚ) : WithTop ℚ), 1, true⟩ ∧
    jsRound (-1 : ℚ) = -1 ∧ jsRound (1 : ℚ) = 1 ∧
    [((99999 : ℤ), (0 : ℤ))].getLast? ≠ some (-1, 1) := by
  refine ⟨?_, ?_, by norm_num [jsRound], by norm_num [jsRound], by simp⟩
  · norm_num [dijkstra, pfLoop, heapPop, heapPush, bubbleUp, bubbleDown, relaxOne,
      reconstructPath, mapGet, mapSet, pointKey, getNeighbors, dirOf, prioLeB, prioLtB,
      sqrtLeAdd, hdummy, jsRound]
  · norm_num [astar, pfLoop, heapPop, heapPush, bubbleUp, bubbleDown, relaxOne,
      reconstructPath, mapGet, mapSet, pointKey, getNeighbors, dirOf, prioLeB, prioLtB,
      sqrtLeAdd, hdummy, jsRound]

theorem mapGet_mapSet_self {α : Type} (m : List (ℤ × α)) (k : ℤ) (v : α) :
    mapGet (mapSet m k v) k = some v := by
  simp [mapGet, mapSet]

theorem mapGet_mapSet_ne {α : Type} (m : List (ℤ × α)) (k q : ℤ) (v : α)
    (h : q ≠ k) : mapGet (mapSet m k v) q = mapGet m q := by
  simp [mapGet, mapSet, h]

theorem mapGet_mem {α : Type} :
    ∀ (m : List (ℤ × α)) (q : ℤ) (v : α), mapGet m q = some v → (q, v) ∈ m := by
  intro m
  induction m with
  | nil => intro q v h; simp [mapGet] at h
  | cons a t ih =>
    intro q v h
    obtain ⟨k, w⟩ := a
    simp only [mapGet] at h
    by_cases hq : q = k
    · rw [if_pos hq] at h
      obtain rfl := hq
      obtain rfl := Option.some.inj h
      exact List.mem_cons_self _ _
    · rw [if_neg hq] at h
      exact List.mem_cons_of_mem _ (ih q v h)

theorem pointKey_inj (x1 y1 x2 y2 : ℤ)
    (h1 : 0 ≤ x1) (h2 : x1 < 100000) (h3 : 0 ≤ x2) (h4 : x2 < 100000)
    (h : pointKey x1 y1 = pointKey x2 y2) : x1 = x2 ∧ y1 = y2 := by
  simp only [pointKey] at h
  omega

theorem pointKey_decode (x y : ℤ) (h1 : 0 ≤ x) (h2 : x < 100000) (h3 : 0 ≤ y) :
    Int.tmod (pointKey x y) 100000 = x ∧ Int.fdiv (pointKey x y) 100000 = y := by
  have hk : 0 ≤ pointKey x y := by simp only [pointKey]; nlinarith
  constructor
  · rw [Int.tmod_eq_emod hk (by norm_num)]
    simp only [pointKey]
    omega
  · rw [Int.fdiv_eq_ediv _ (by norm_num)]
    simp only [pointKey]
    omega

theorem mem_of_mem_bubbleUp :
    ∀ (fuel : ℕ) (h : List HeapEntry) (i : ℕ), i < h.length →
      ∀ e ∈ bubbleUp fuel h i, e ∈ h := by
  intro fuel
  induction fuel with
  | zero => intro h i _ e he; exact he
  | succ n ih =>
    intro h i hi e he
    simp only [bubbleUp] at he
    by_cases h0 : i = 0
    · rw [if_pos h0] at he; exact he
    · rw [if_neg h0] at he
      by_cases hle : prioLeB (h.getD ((i - 1) / 2) hdummy).priority
          (h.getD i hdummy).priority = true
      · rw [if_pos hle] at he; exact he
      · rw [if_neg hle] at he
        have hp : (i - 1) / 2 < h.length := by omega
        have hlen : ((h.set ((i - 1) / 2) (h.getD i hdummy)).set i
            (h.getD ((i - 1) / 2) hdummy)).length = h.length := by simp
        have := ih _ _ (by omega) e he
        rcases List.mem_or_eq_of_mem_set this with h1 | h1
        · rcases List.mem_or_eq_of_mem_set h1 with h2 | h2
          · exact h2
          · rw [h2, List.getD_eq_getElem h hdummy hi]
            exact List.getElem_mem _
        · rw [h1, List.getD_eq_getElem h hdummy hp]
          exact List.getElem_mem _

theorem mem_of_mem_bubbleDown :
    ∀ (fuel : ℕ) (h : List HeapEntry) (i : ℕ), i < h.length →
      ∀ e ∈ bubbleDown fuel h i, e ∈ h := by
  intro fuel
  induction fuel with
  | zero => intro h i _ e he; exact he
  | succ n ih =>
    intro h i hi e he
    simp only [bubbleDown] at he
    set s1 := if 2 * i + 1 < h.length &&
        prioLtB (h.getD (2 * i + 1) hdummy).priority (h.getD i hdummy).priority
      then 2 * i + 1 else i with hs1
    set s2 := if 2 * i + 2 < h.length &&
        prioLtB (h.getD (2 * i + 2) hdummy).priority (h.getD s1 hdummy).priority
      then 2 * i + 2 else s1 with hs2
    have hs1lt : s1 < h.length := by
      rw [hs1]; split
      · next hc => exact (Bool.and_eq_true _ _).mp hc |>.1 |> of_decide_eq_true
      · exact hi
    have hs2lt : s2 < h.length := by
      rw [hs2]; split
      · next hc => exact (Bool.and_eq_true _ _).mp hc |>.1 |> of_decide_eq_true
      · exact hs1lt
    by_cases heq : s2 = i
    · rw [if_pos heq] at he; exact he
    · rw [if_neg heq] at he
      have := ih _ _ (by simpa using hs2lt) e he
      rcases List.mem_or_eq_of_mem_set this with h1 | h1
      · rcases List.mem_or_eq_of_mem_set h1 with h2 | h2
        · exact h2
        · rw [h2, List.getD_eq_getElem h hdummy hi]
          exact List.getElem_mem _
      · rw [h1, List.getD_eq_getElem h hdummy hs2lt]
        exact List.getElem_mem _

theorem mem_of_mem_heapPush (h : List HeapEntry) (p : Prio) (v : PFNode) :
    ∀ e ∈ heapPush h p v, e ∈ h ∨ e = ⟨p, v⟩ := by
  intro e he
  simp only [heapPush] at he
  have hlen : (h ++ [(⟨p, v⟩ : HeapEntry)]).length = h.length + 1 := by simp
  have := mem_of_mem_bubbleUp _ _ _ (by omega) e he
  rcases List.mem_append.mp this with h1 | h1
  · exact Or.inl h1
  · exact Or.inr (List.mem_singleton.mp h1)

theorem heapPop_some (h : List HeapEntry) (cur : PFNode) (h2 : List HeapEntry)
    (hp : heapPop h = some (cur, h2)) :
    (∃ e ∈ h, e.value = cur) ∧ ∀ e ∈ h2, e ∈ h := by
  match h with
  | [] => simp [heapPop] at hp
  | mn :: t =>
    simp only [heapPop] at hp
    obtain ⟨h1, h3⟩ := Prod.mk.inj (Option.some.inj hp)
    constructor
    · exact ⟨mn, List.mem_cons_self _ _, h1.symm ▸ rfl⟩
    · intro e he
      rw [← h3] at he
      have hsub : ∀ x ∈ (mn :: t).dropLast, x ∈ mn :: t :=
        fun x hx => (List.dropLast_sublist _).subset hx
      by_cases hnil : 0 < (mn :: t).dropLast.length
      · rw [if_pos hnil] at he
        have hset : ((mn :: t).dropLast.set 0
            ((mn :: t).getD ((mn :: t).length - 1) hdummy)).length =
            (mn :: t).dropLast.length := by simp
        have := mem_of_mem_bubbleDown _ _ 0 (by omega) e he
        rcases List.mem_or_eq_of_mem_set this with h4 | h4
        · exact hsub e h4
        · rw [h4, List.getD_eq_getElem _ hdummy (by simp)]
          exact List.getElem_mem _
      · rw [if_neg hnil] at he
        exact hsub e he

theorem getNeighbors_facts (x y : ℤ) (mode : ℕ) :
    ∀ nbr ∈ getNeighbors x y mode,
      (nbr.2.2 = 1 ∨ nbr.2.2 = SQRT2J) ∧ (nbr.1, nbr.2.1) ≠ (x, y) ∧
      (nbr.1 - x).natAbs ≤ 1 ∧ (nbr.2.1 - y).natAbs ≤ 1 ∧
      (nbr.2.2 = 1 → (nbr.1 - x).natAbs + (nbr.2.1 - y).natAbs ≤ 1) ∧
      (mode = 4 → nbr.2.2 = 1) := by
  intro nbr hmem
  simp only [getNeighbors] at hmem
  by_cases hm : mode = 4
  · rw [if_pos hm] at hmem
    simp only [List.mem_cons, List.not_mem_nil, or_false] at hmem
    rcases hmem with h | h | h | h <;> subst h <;>
      refine ⟨Or.inl rfl, by simp only [ne_eq, Prod.mk.injEq, not_and]; omega,
        by dsimp only; omega, by dsimp only; omega, fun _ => by dsimp only; omega,
        fun _ => rfl⟩
  · rw [if_neg hm] at hmem
    have h2 : SQRT2J ≠ 1 := by norm_num [SQRT2J]
    simp only [List.mem_cons, List.not_mem_nil, or_false] at hmem
    rcases hmem with h | h | h | h | h | h | h | h <;> subst h <;>
      refine ⟨by tauto, by simp only [ne_eq, Prod.mk.injEq, not_and]; omega,
        by dsimp only; omega, by dsimp only; omega, ?_, fun hc => absurd hc hm⟩ <;>
      first
        | (intro _; dsimp only; omega)
        | (intro hc; dsimp only at hc; exact absurd hc h2)

theorem dirOf_bounds (dx dy : ℤ) : -3 ≤ dirOf dx dy ∧ dirOf dx dy ≤ 4 := by
  unfold dirOf
  split_ifs <;> norm_num

theorem SQRT2J_bounds : (1 : ℚ) ≤ SQRT2J ∧ SQRT2J ≤ 2 := by
  norm_num [SQRT2J]

/-- The direction-continuity cost term of `relaxOne`, named for the proofs. -/
def relaxDirCost (c : PFCtx) (pd : Option ℤ) (k : ℤ) : ℚ :=
  match pd with
  | none => 0
  | some p =>
    if 0 ≤ p ∧ 0 < c.dcc then c.dcc * ((min |k - p| (8 - |k - p|) : ℤ) : ℚ) / 4
    else 0

/-- The tentative cost of `relaxOne`, named for the proofs. -/
def relaxTotal (c : PFCtx) (ck : ℤ) (cx cy : ℤ) (pd : Option ℤ) (s : PFState)
    (nbr : ℤ × ℤ × ℚ) : ℚ :=
  (mapGet s.dist ck).getD 0 +
    nbr.2.2 * (c.cm.costs (nbr.2.1.toNat * c.cm.width + nbr.1.toNat) + 1 / 100) +
    relaxDirCost c pd (dirOf (nbr.1 - cx) (nbr.2.1 - cy))

theorem relaxOne_cases (useAstar : Bool) (c : PFCtx) (ck : ℤ) (cx cy : ℤ)
    (pd : Option ℤ) (s : PFState) (nbr : ℤ × ℤ × ℚ) :
    relaxOne useAstar c ck cx cy pd s nbr = s ∨
    (0 ≤ nbr.1 ∧ nbr.1 < (c.cm.width : ℤ) ∧ 0 ≤ nbr.2.1 ∧ nbr.2.1 < (c.cm.height : ℤ) ∧
     (mapGet s.dist (pointKey nbr.1 nbr.2.1) = none ∨
       ∃ d, mapGet s.dist (pointKey nbr.1 nbr.2.1) = some d ∧
         relaxTotal c ck cx cy pd s nbr < d) ∧
     relaxOne useAstar c ck cx cy pd s nbr = { s with
       dist := mapSet s.dist (pointKey nbr.1 nbr.2.1) (relaxTotal c ck cx cy pd s nbr)
       prev := mapSet s.prev (pointKey nbr.1 nbr.2.1) ck
       fscore := if useAstar then
           mapSet s.fscore (pointKey nbr.1 nbr.2.1)
             ⟨relaxTotal c ck cx cy pd s nbr,
              (((nbr.1 - c.ex) ^ 2 + (nbr.2.1 - c.ey) ^ 2 : ℤ) : ℚ)⟩
         else s.fscore
       heap := heapPush s.heap
         (if useAstar then
            ⟨relaxTotal c ck cx cy pd s nbr,
             (((nbr.1 - c.ex) ^ 2 + (nbr.2.1 - c.ey) ^ 2 : ℤ) : ℚ)⟩
          else ⟨relaxTotal c ck cx cy pd s nbr, 0⟩)
         ⟨nbr.1, nbr.2.1, some (dirOf (nbr.1 - cx) (nbr.2.1 - cy))⟩ }) := by
  obtain ⟨nx, ny, mc⟩ := nbr
  simp only [relaxOne]
  by_cases hb : nx < 0 ∨ (c.cm.width : ℤ) ≤ nx ∨ ny < 0 ∨ (c.cm.height : ℤ) ≤ ny
  · rw [if_pos hb]
    exact Or.inl rfl
  · rw [if_neg hb]
    push_neg at hb
    cases hd : mapGet s.dist (pointKey nx ny) with
    | none =>
      refine Or.inr ⟨hb.1, hb.2.1, hb.2.2.1, hb.2.2.2, Or.inl rfl, ?_⟩
      rw [if_pos rfl]
      simp only [relaxTotal, relaxDirCost]
    | some d =>
      by_cases hlt : (mapGet s.dist ck).getD 0 +
          mc * (c.cm.costs (ny.toNat * c.cm.width + nx.toNat) + 1 / 100) +
          (match pd with
           | none => (0 : ℚ)
           | some p =>
             if 0 ≤ p ∧ 0 < c.dcc then
               c.dcc * ((min |dirOf (nx - cx) (ny - cy) - p|
                 (8 - |dirOf (nx - cx) (ny - cy) - p|) : ℤ) : ℚ) / 4
             else 0) < d
      · refine Or.inr ⟨hb.1, hb.2.1, hb.2.2.1, hb.2.2.2,
          Or.inr ⟨d, rfl, by simpa [relaxTotal, relaxDirCost] using hlt⟩, ?_⟩
        rw [if_pos (decide_eq_true hlt)]
        simp only [relaxTotal, relaxDirCost]
      · left
        rw [if_neg (fun hc => hlt (of_decide_eq_true hc))]

theorem relaxDirCost_nonneg (c : PFCtx) (pd : Option ℤ) (k : ℤ) (hdcc : 0 ≤ c.dcc)
    (hk1 : -3 ≤ k) (hk2 : k ≤ 4)
    (hp : ∀ p, pd = some p → -3 ≤ p ∧ p ≤ 4) : 0 ≤ relaxDirCost c pd k := by
  cases pd with
  | none => simp [relaxDirCost]
  | some p =>
    obtain ⟨hp1, hp2⟩ := hp p rfl
    simp only [relaxDirCost]
    split
    · apply div_nonneg _ (by norm_num)
      apply mul_nonneg hdcc
      have h : (0 : ℤ) ≤ min |k - p| (8 - |k - p|) := by
        rcases abs_cases (k - p) with ⟨h1, h2⟩ | ⟨h1, h2⟩ <;> rw [h1] <;> omega
      exact_mod_cast h
    · exact le_refl 0

/-- The state invariant of the main loop shared by the C7 proofs: every heap
node's key has a distance entry, heap nodes have safe coordinates and
in-range direction tags, and the latest `prev` edges strictly decrease the
stored distance (which makes the `prev` chains acyclic). -/
structure PFInv (c : PFCtx) (s : PFState) : Prop where
  hkeys : ∀ e ∈ s.heap, ∃ d, mapGet s.dist (pointKey e.value.x e.value.y) = some d
  hsafe : ∀ e ∈ s.heap, 0 ≤ e.value.x ∧ e.value.x < 100000 ∧ 0 ≤ e.value.y
  hdir : ∀ e ∈ s.heap, ∀ p, e.value.prevDir = some p → -3 ≤ p ∧ p ≤ 4
  hprev : ∀ k pk, mapGet s.prev k = some pk →
    ∃ dk dpk, mapGet s.dist k = some dk ∧ mapGet s.dist pk = some dpk ∧ dpk < dk


theorem relaxOne_inv (useAstar : Bool) (c : PFCtx) (cx cy : ℤ) (pd : Option ℤ)
    (s : PFState) (nbr : ℤ × ℤ × ℚ)
    (hcost : ∀ i, i < c.cm.width * c.cm.height → 0 ≤ c.cm.costs i)
    (hdcc : 0 ≤ c.dcc)
    (hW : c.cm.width ≤ 100000)
    (hcx : 0 ≤ cx ∧ cx < 100000 ∧ 0 ≤ cy)
    (hpd : ∀ p, pd = some p → -3 ≤ p ∧ p ≤ 4)
    (hck : ∃ d, mapGet s.dist (pointKey cx cy) = some d)
    (hmv : nbr.2.2 = 1 ∨ nbr.2.2 = SQRT2J)
    (hne : (nbr.1, nbr.2.1) ≠ (cx, cy))
    (hinv : PFInv c s) :
    PFInv c (relaxOne useAstar c (pointKey cx cy) cx cy pd s nbr) ∧
    (∃ d, mapGet (relaxOne useAstar c (pointKey cx cy) cx cy pd s nbr).dist
      (pointKey cx cy) = some d) := by
  obtain ⟨nx, ny, mc⟩ := nbr
  rcases relaxOne_cases useAstar c (pointKey cx cy) cx cy pd s (nx, ny, mc) with
    heq | ⟨hb1, hb2, hb3, hb4, hdold, heq⟩
  · rw [heq]; exact ⟨hinv, hck⟩
  · simp only at hb1 hb2 hb3 hb4 hdold hmv
    obtain ⟨dcur, hdcur⟩ := hck
    have hnx100 : nx < 100000 := by omega
    have hnk : pointKey nx ny ≠ pointKey cx cy := by
      intro hc
      have h := pointKey_inj nx ny cx cy hb1 hnx100 hcx.1 hcx.2.1 hc
      exact hne (by simp [h.1, h.2])
    have hmc1 : (1 : ℚ) ≤ mc := by
      rcases hmv with h | h
      · rw [h]
      · rw [h]; exact SQRT2J_bounds.1
    have hidx : ny.toNat * c.cm.width + nx.toNat < c.cm.width * c.cm.height := by
      have h1 : nx.toNat < c.cm.width := by omega
      have h2 : ny.toNat < c.cm.height := by omega
      calc ny.toNat * c.cm.width + nx.toNat
          < ny.toNat * c.cm.width + c.cm.width := by omega
        _ = (ny.toNat + 1) * c.cm.width := by ring
        _ ≤ c.cm.height * c.cm.width := by
            exact Nat.mul_le_mul_right _ (by omega)
        _ = c.cm.width * c.cm.height := Nat.mul_comm _ _
    have hec : 0 ≤ c.cm.costs (ny.toNat * c.cm.width + nx.toNat) := hcost _ hidx
    have hdc : 0 ≤ relaxDirCost c pd (dirOf (nx - cx) (ny - cy)) :=
      relaxDirCost_nonneg c pd _ hdcc (dirOf_bounds _ _).1 (dirOf_bounds _ _).2 hpd
    have htotal : dcur < relaxTotal c (pointKey cx cy) cx cy pd s (nx, ny, mc) := by
      simp only [relaxTotal, hdcur, Option.getD_some]
      nlinarith [hmc1, hec, hdc]
    rw [heq]
    set total := relaxTotal c (pointKey cx cy) cx cy pd s (nx, ny, mc) with htdef
    refine ⟨⟨?_, ?_, ?_, ?_⟩, ?_⟩
    · intro e he
      simp only at he ⊢
      rcases mem_of_mem_heapPush _ _ _ e he with hold | hnew
      · obtain ⟨d, hd⟩ := hinv.hkeys e hold
        by_cases hkey : pointKey e.value.x e.value.y = pointKey nx ny
        · rw [hkey, mapGet_mapSet_self]
          exact ⟨total, rfl⟩
        · rw [mapGet_mapSet_ne _ _ _ _ hkey]
          exact ⟨d, hd⟩
      · rw [hnew]
        simp only
        rw [mapGet_mapSet_self]
        exact ⟨total, rfl⟩
    · intro e he
      simp only at he
      rcases mem_of_mem_heapPush _ _ _ e he with hold | hnew
      · exact hinv.hsafe e hold
      · rw [hnew]
        exact ⟨hb1, hnx100, hb3⟩
    · intro e he p hp
      simp only at he
      rcases mem_of_mem_heapPush _ _ _ e he with hold | hnew
      · exact hinv.hdir e hold p hp
      · rw [hnew] at hp
        simp only at hp
        obtain rfl := Option.some.inj hp
        exact dirOf_bounds _ _
    · intro k pk hkpk
      simp only at hkpk ⊢
      by_cases hknk : k = pointKey nx ny
      · subst hknk
        rw [mapGet_mapSet_self] at hkpk
        obtain rfl := Option.some.inj hkpk
        rw [mapGet_mapSet_self, mapGet_mapSet_ne _ _ _ _ hnk.symm, hdcur]
        exact ⟨total, dcur, rfl, rfl, htotal⟩
      · rw [mapGet_mapSet_ne _ _ _ _ hknk] at hkpk
        obtain ⟨dk, dpk, hdk, hdpk, hlt⟩ := hinv.hprev k pk hkpk
        rw [mapGet_mapSet_ne _ _ _ _ hknk, hdk]
        by_cases hpknk : pk = pointKey nx ny
        · subst hpknk
          rw [mapGet_mapSet_self]
          rcases hdold with hnone | ⟨dold, hdold2, hlt2⟩
          · rw [hdpk] at hnone; exact absurd hnone (by simp)
          · rw [hdpk] at hdold2
            obtain rfl := Option.some.inj hdold2
            exact ⟨dk, total, rfl, rfl, lt_trans hlt2 hlt⟩
        · rw [mapGet_mapSet_ne _ _ _ _ hpknk, hdpk]
          exact ⟨dk, dpk, rfl, rfl, hlt⟩
    · simp only
      rw [mapGet_mapSet_ne _ _ _ _ hnk.symm]
      exact ⟨dcur, hdcur⟩

theorem foldl_relax_inv (useAstar : Bool) (c : PFCtx) (cx cy : ℤ) (pd : Option ℤ)
    (hcost : ∀ i, i < c.cm.width * c.cm.height → 0 ≤ c.cm.costs i)
    (hdcc : 0 ≤ c.dcc)
    (hW : c.cm.width ≤ 100000)
    (hcx : 0 ≤ cx ∧ cx < 100000 ∧ 0 ≤ cy)
    (hpd : ∀ p, pd = some p → -3 ≤ p ∧ p ≤ 4) :
    ∀ (l : List (ℤ × ℤ × ℚ)) (s : PFState),
      (∀ nbr ∈ l, (nbr.2.2 = 1 ∨ nbr.2.2 = SQRT2J) ∧ (nbr.1, nbr.2.1) ≠ (cx, cy)) →
      PFInv c s → (∃ d, mapGet s.dist (pointKey cx cy) = some d) →
      PFInv c (l.foldl (relaxOne useAstar c (pointKey cx cy) cx cy pd) s) := by
  intro l
  induction l with
  | nil => intro s _ hinv _; exact hinv
  | cons a t ih =>
    intro s hl hinv hck
    simp only [List.foldl_cons]
    obtain ⟨h1, h2⟩ := relaxOne_inv useAstar c cx cy pd s a hcost hdcc hW hcx hpd hck
      (hl a (List.mem_cons_self _ _)).1 (hl a (List.mem_cons_self _ _)).2 hinv
    exact ih _ (fun nbr hn => hl nbr (List.mem_cons_of_mem _ hn)) h1 h2

/-- The stored distance of a key, with the JS `|| 0` default. -/
def dval (dist : List (ℤ × ℚ)) (k : ℤ) : ℚ := (mapGet dist k).getD 0

/-- Termination measure for the reconstruction loop: how many `prev` keys
have a stored distance at most that of `k`. -/
def chainMu (prev : List (ℤ × ℤ)) (dist : List (ℤ × ℚ)) (k : ℤ) : ℕ :=
  ((prev.map Prod.fst).toFinset.filter (fun q => dval dist q ≤ dval dist k)).card

theorem chainMu_le (prev : List (ℤ × ℤ)) (dist : List (ℤ × ℚ)) (k : ℤ) :
    chainMu prev dist k ≤ prev.length := by
  calc chainMu prev dist k
      ≤ (prev.map Prod.fst).toFinset.card := Finset.card_filter_le _ _
    _ ≤ (prev.map Prod.fst).length := List.toFinset_card_le _
    _ = prev.length := List.length_map _ _

theorem chainMu_lt (prev : List (ℤ × ℤ)) (dist : List (ℤ × ℚ)) (k pk : ℤ)
    (hget : mapGet prev k = some pk)
    (hprev : ∀ a b, mapGet prev a = some b → ∃ da db, mapGet dist a = some da ∧
      mapGet dist b = some db ∧ db < da) :
    chainMu prev dist pk < chainMu prev dist k := by
  obtain ⟨dk, dpk, hdk, hdpk, hlt⟩ := hprev k pk hget
  have hkd : dval dist k = dk := by simp [dval, hdk]
  have hpd : dval dist pk = dpk := by simp [dval, hdpk]
  apply Finset.card_lt_card
  rw [Finset.ssubset_iff_of_subset]
  · refine ⟨k, ?_, ?_⟩
    · rw [Finset.mem_filter]
      refine ⟨List.mem_toFinset.mpr ?_, le_refl _⟩
      exact List.mem_map.mpr ⟨(k, pk), mapGet_mem prev k pk hget, rfl⟩
    · rw [Finset.mem_filter]
      intro hc
      rw [hkd, hpd] at hc
      exact absurd hc.2 (not_le.mpr hlt)
  · intro x hx
    rw [Finset.mem_filter] at hx ⊢
    refine ⟨hx.1, le_trans hx.2 ?_⟩
    rw [hkd, hpd]
    exact le_of_lt hlt

theorem reconstruct_total (prev : List (ℤ × ℤ)) (dist : List (ℤ × ℚ)) (sk : ℤ)
    (hprev : ∀ a b, mapGet prev a = some b → ∃ da db, mapGet dist a = some da ∧
      mapGet dist b = some db ∧ db < da) :
    ∀ (fuel : ℕ) (key : ℤ) (acc : List (ℤ × ℤ)), chainMu prev dist key + 2 ≤ fuel →
      ∃ pre, reconstructPath fuel prev sk key acc = some (pre ++ acc) := by
  intro fuel
  induction fuel with
  | zero => intro key acc h; omega
  | succ n ih =>
    intro key acc h
    simp only [reconstructPath]
    by_cases hsk : key = sk
    · rw [if_pos hsk]
      exact ⟨[], rfl⟩
    · rw [if_neg hsk]
      cases hg : mapGet prev key with
      | none => exact ⟨[(Int.tmod key 100000, Int.fdiv key 100000)], rfl⟩
      | some k2 =>
        have hmu := chainMu_lt prev dist key k2 hg hprev
        obtain ⟨pre, hpre⟩ := ih k2
          ((Int.tmod key 100000, Int.fdiv key 100000) :: acc) (by omega)
        refine ⟨pre ++ [(Int.tmod key 100000, Int.fdiv key 100000)], ?_⟩
        show reconstructPath n prev sk k2
            ((Int.tmod key 100000, Int.fdiv key 100000) :: acc) = _
        rw [hpre]
        simp

theorem pfLoop_dichotomy (useAstar : Bool) (c : PFCtx)
    (hcost : ∀ i, i < c.cm.width * c.cm.height → 0 ≤ c.cm.costs i)
    (hdcc : 0 ≤ c.dcc)
    (hW : c.cm.width ≤ 100000)
    (hsx : 0 ≤ c.sx) (hsx2 : c.sx < 100000) (hsy : 0 ≤ c.sy)
    (hex : 0 ≤ c.ex) (hex2 : c.ex < 100000) (hey : 0 ≤ c.ey) :
    ∀ (fuel : ℕ) (s : PFState), PFInv c s →
      ∃ r, pfLoop useAstar c fuel s = some r ∧
        ((r.success = true ∧ r.path.head? = some (c.sx, c.sy) ∧
          r.path.getLast? = some (c.ex, c.ey)) ∨
         (r.success = false ∧ r.path = [] ∧ r.cost = ⊤)) := by
  intro fuel
  induction fuel with
  | zero =>
    intro s _
    exact ⟨⟨[], ⊤, s.iterations, false⟩, rfl, Or.inr ⟨rfl, rfl, rfl⟩⟩
  | succ n ih =>
    intro s hinv
    simp only [pfLoop]
    cases hpop : heapPop s.heap with
    | none =>
      exact ⟨⟨[], ⊤, s.iterations, false⟩, rfl, Or.inr ⟨rfl, rfl, rfl⟩⟩
    | some p =>
      obtain ⟨cur, h2⟩ := p
      dsimp only
      by_cases hend : pointKey cur.x cur.y = pointKey c.ex c.ey
      · rw [if_pos hend]
        by_cases hse : pointKey c.ex c.ey = pointKey c.sx c.sy
        · have hxy := pointKey_inj c.ex c.ey c.sx c.sy hex hex2 hsx hsx2 hse
          have hrec : reconstructPath (s.prev.length + 2) s.prev (pointKey c.sx c.sy)
              (pointKey c.ex c.ey) [] = some [] := by
            show reconstructPath (s.prev.length + 1 + 1) _ _ _ _ = _
            simp only [reconstructPath]
            rw [if_pos hse]
          rw [hrec]
          refine ⟨_, rfl, Or.inl ⟨rfl, rfl, ?_⟩⟩
          simp [hxy.1, hxy.2]
        · have hdecode := pointKey_decode c.ex c.ey hex hex2 hey
          cases hg : mapGet s.prev (pointKey c.ex c.ey) with
          | none =>
            have hrec : reconstructPath (s.prev.length + 2) s.prev (pointKey c.sx c.sy)
                (pointKey c.ex c.ey) [] = some [(c.ex, c.ey)] := by
              show reconstructPath (s.prev.length + 1 + 1) _ _ _ _ = _
              simp only [reconstructPath]
              rw [if_neg hse, hg, hdecode.1, hdecode.2]
            rw [hrec]
            exact ⟨_, rfl, Or.inl ⟨rfl, rfl, by simp⟩⟩
          | some k2 =>
            have hmu1 := chainMu_lt s.prev s.dist _ k2 hg hinv.hprev
            have hmu2 := chainMu_le s.prev s.dist (pointKey c.ex c.ey)
            obtain ⟨pre, hpre⟩ := reconstruct_total s.prev s.dist (pointKey c.sx c.sy)
              hinv.hprev (s.prev.length + 1) k2 [(c.ex, c.ey)] (by omega)
            have hrec : reconstructPath (s.prev.length + 2) s.prev (pointKey c.sx c.sy)
                (pointKey c.ex c.ey) [] = some (pre ++ [(c.ex, c.ey)]) := by
              show reconstructPath (s.prev.length + 1 + 1) _ _ _ _ = _
              simp only [reconstructPath]
              rw [if_neg hse, hg, hdecode.1, hdecode.2]
              exact hpre
            rw [hrec]
            refine ⟨_, rfl, Or.inl ⟨rfl, rfl, ?_⟩⟩
            rw [show (c.sx, c.sy) :: (pre ++ [(c.ex, c.ey)]) =
              ((c.sx, c.sy) :: pre) ++ [(c.ex, c.ey)] from rfl]
            exact List.getLast?_concat _
      · rw [if_neg hend]
        obtain ⟨⟨e, he, hev⟩, hsub⟩ := heapPop_some s.heap cur h2 hpop
        have hcur_safe := hinv.hsafe e he
        have hcur_dir := hinv.hdir e he
        have hcur_key := hinv.hkeys e he
        rw [hev] at hcur_safe hcur_dir hcur_key
        have hinv2 : PFInv c { s with heap := h2, iterations := s.iterations + 1 } :=
          ⟨fun e2 he2 => hinv.hkeys e2 (hsub e2 he2),
           fun e2 he2 => hinv.hsafe e2 (hsub e2 he2),
           fun e2 he2 => hinv.hdir e2 (hsub e2 he2),
           hinv.hprev⟩
        have hfold := foldl_relax_inv useAstar c cur.x cur.y cur.prevDir hcost hdcc hW
          hcur_safe hcur_dir (getNeighbors cur.x cur.y c.mode)
          { s with heap := h2, iterations := s.iterations + 1 }
          (fun nbr hn => ⟨(getNeighbors_facts cur.x cur.y c.mode nbr hn).1,
            (getNeighbors_facts cur.x cur.y c.mode nbr hn).2.1⟩)
          hinv2 hcur_key
        exact ih _ hfold

/-- C7 (amended): for calls with `cursorInfluence = 0`, nonnegative
in-bounds costs, nonnegative direction-continuity cost, map width at most
100000, and rounded start/end coordinates with `0 ≤ x < 100000` and
`0 ≤ y` (so that `pointKey` neither aliases nor mis-decodes), every call to
dijkstra or astar returns (raising no exception and never diverging in path
reconstruction): either `success = true` with a path whose first point is
the rounded start and whose last point is the rounded end, or
`success = false` with an empty path and infinite cost.  Without these
bounds the success/endpoint part fails (see the counterexample), and with
negative costs the reconstruction loop can diverge. -/
theorem pathfinding_terminates_success_or_failure
    (start endPt : Point) (costMap : CostMap) (options : PathfindingOptions)
    (hcost : ∀ i, i < costMap.width * costMap.height → 0 ≤ costMap.costs i)
    (hdcc : 0 ≤ options.directionContinuityCost)
    (hW : costMap.width ≤ 100000)
    (hsx : 0 ≤ jsRound start.x) (hsx2 : jsRound start.x < 100000)
    (hsy : 0 ≤ jsRound start.y)
    (hex : 0 ≤ jsRound endPt.x) (hex2 : jsRound endPt.x < 100000)
    (hey : 0 ≤ jsRound endPt.y) :
    (∃ r, dijkstra start endPt costMap options = some r ∧
      ((r.success = true ∧ r.path.head? = some (jsRound start.x, jsRound start.y) ∧
        r.path.getLast? = some (jsRound endPt.x, jsRound endPt.y)) ∨
       (r.success = false ∧ r.path = [] ∧ r.cost = ⊤))) ∧
    (∃ r, astar start endPt costMap options = some r ∧
      ((r.success = true ∧ r.path.head? = some (jsRound start.x, jsRound start.y) ∧
        r.path.getLast? = some (jsRound endPt.x, jsRound endPt.y)) ∨
       (r.success = false ∧ r.path = [] ∧ r.cost = ⊤))) := by
  have hinit : ∀ n0 : ℚ, PFInv
      ⟨costMap, options.neighborMode, options.directionContinuityCost,
       jsRound start.x, jsRound start.y, jsRound endPt.x, jsRound endPt.y⟩
      ⟨[⟨⟨0, n0⟩, ⟨jsRound start.x, jsRound start.y, none⟩⟩],
       [(pointKey (jsRound start.x) (jsRound start.y), 0)],
       [(pointKey (jsRound start.x) (jsRound start.y), ⟨0, n0⟩)], [], 0⟩ := by
    intro n0
    refine ⟨?_, ?_, ?_, ?_⟩
    · intro e he
      simp only [List.mem_singleton] at he
      subst he
      exact ⟨0, by simp [mapGet]⟩
    · intro e he
      simp only [List.mem_singleton] at he
      subst he
      exact ⟨hsx, hsx2, hsy⟩
    · intro e he p hp
      simp only [List.mem_singleton] at he
      subst he
      simp at hp
    · intro k pk h
      simp [mapGet] at h
  have hinit0 : PFInv
      ⟨costMap, options.neighborMode, options.directionContinuityCost,
       jsRound start.x, jsRound start.y, jsRound endPt.x, jsRound endPt.y⟩
      ⟨[⟨⟨0, 0⟩, ⟨jsRound start.x, jsRound start.y, none⟩⟩],
       [(pointKey (jsRound start.x) (jsRound start.y), 0)], [], [], 0⟩ := by
    have h := hinit 0
    exact ⟨h.hkeys, h.hsafe, h.hdir, by intro k pk hc; simp [mapGet] at hc⟩
  constructor
  · obtain ⟨r, hr, hd⟩ := pfLoop_dichotomy false
      ⟨costMap, options.neighborMode, options.directionContinuityCost,
       jsRound start.x, jsRound start.y, jsRound endPt.x, jsRound endPt.y⟩
      hcost hdcc hW hsx hsx2 hsy hex hex2 hey options.maxIterations
      ⟨[⟨⟨0, 0⟩, ⟨jsRound start.x, jsRound start.y, none⟩⟩],
       [(pointKey (jsRound start.x) (jsRound start.y), 0)], [], [], 0⟩ hinit0
    exact ⟨r, hr, hd⟩
  · obtain ⟨r, hr, hd⟩ := pfLoop_dichotomy true
      ⟨costMap, options.neighborMode, options.directionContinuityCost,
       jsRound start.x, jsRound start.y, jsRound endPt.x, jsRound endPt.y⟩
      hcost hdcc hW hsx hsx2 hsy hex hex2 hey options.maxIterations
      ⟨[⟨⟨0, (((jsRound endPt.x - jsRound start.x) ^ 2 +
              (jsRound endPt.y - jsRound start.y) ^ 2 : ℤ) : ℚ)⟩,
         ⟨jsRound start.x, jsRound start.y, none⟩⟩],
       [(pointKey (jsRound start.x) (jsRound start.y), 0)],
       [(pointKey (jsRound start.x) (jsRound start.y),
         ⟨0, (((jsRound endPt.x - jsRound start.x) ^ 2 +
              (jsRound endPt.y - jsRound start.y) ^ 2 : ℤ) : ℚ)⟩)], [], 0⟩
      (hinit _)
    exact ⟨r, hr, hd⟩

theorem pathfinding_terminates_success_or_failure_witness :
    (∀ i, i < (⟨2, 1, fun _ => 0⟩ : CostMap).width * (⟨2, 1, fun _ => 0⟩ : CostMap).height →
      0 ≤ (⟨2, 1, fun _ => 0⟩ : CostMap).costs i) ∧
    (0 : ℚ) ≤ (⟨4, 0, 5⟩ : PathfindingOptions).directionContinuityCost ∧
    (⟨2, 1, fun _ => 0⟩ : CostMap).width ≤ 100000 ∧
    0 ≤ jsRound (⟨0, 0⟩ : Point).x ∧ jsRound (⟨0, 0⟩ : Point).x < 100000 ∧
    0 ≤ jsRound (⟨0, 0⟩ : Point).y ∧
    0 ≤ jsRound (⟨1, 0⟩ : Point).x ∧ jsRound (⟨1, 0⟩ : Point).x < 100000 ∧
    0 ≤ jsRound (⟨1, 0⟩ : Point).y ∧
    ((∃ r, dijkstra ⟨0, 0⟩ ⟨1, 0⟩ ⟨2, 1, fun _ => 0⟩ ⟨4, 0, 5⟩ = some r ∧
      ((r.success = true ∧
        r.path.head? = some (jsRound (⟨0, 0⟩ : Point).x, jsRound (⟨0, 0⟩ : Point).y) ∧
        r.path.getLast? = some (jsRound (⟨1, 0⟩ : Point).x, jsRound (⟨1, 0⟩ : Point).y)) ∨
       (r.success = false ∧ r.path = [] ∧ r.cost = ⊤))) ∧
     (∃ r, astar ⟨0, 0⟩ ⟨1, 0⟩ ⟨2, 1, fun _ => 0⟩ ⟨4, 0, 5⟩ = some r ∧
      ((r.success = true ∧
        r.path.head? = some (jsRound (⟨0, 0⟩ : Point).x, jsRound (⟨0, 0⟩ : Point).y) ∧
        r.path.getLast? = some (jsRound (⟨1, 0⟩ : Point).x, jsRound (⟨1, 0⟩ : Point).y)) ∨
       (r.success = false ∧ r.path = [] ∧ r.cost = ⊤)))) :=
  ⟨fun i _ => le_refl 0, le_refl 0, by norm_num,
   by norm_num [jsRound], by norm_num [jsRound], by norm_num [jsRound],
   by norm_num [jsRound], by norm_num [jsRound], by norm_num [jsRound],
   pathfinding_terminates_success_or_failure ⟨0, 0⟩ ⟨1, 0⟩ ⟨2, 1, fun _ => 0⟩ ⟨4, 0, 5⟩
     (fun i _ => le_refl 0) (le_refl 0) (by norm_num)
     (by norm_num [jsRound]) (by norm_num [jsRound]) (by norm_num [jsRound])
     (by norm_num [jsRound]) (by norm_num [jsRound]) (by norm_num [jsRound])⟩

/-- The minimum possible total move cost of a grid walk between two cells:
Manhattan distance in 4-neighbor mode, and `SQRT2J` per diagonal in
8-neighbor mode. -/
def gridDist (mode : ℕ) (dx dy : ℤ) : ℚ :=
  if mode = 4 then ((dx.natAbs + dy.natAbs : ℕ) : ℚ)
  else SQRT2J * ((min dx.natAbs dy.natAbs : ℕ) : ℚ) +
    ((max dx.natAbs dy.natAbs - min dx.natAbs dy.natAbs : ℕ) : ℚ)

theorem gridDist_zero (mode : ℕ) : gridDist mode 0 0 = 0 := by
  simp [gridDist]

theorem phi8_step (c2 A B A2 B2 : ℚ) (h1 : 1 ≤ c2) (h2 : c2 ≤ 2)
    (hdA : A2 ≤ A + 1) (hdB : B2 ≤ B + 1) (mc : ℚ)
    (hmc : mc = c2 ∨ (mc = 1 ∧ A2 + B2 ≤ A + B + 1)) :
    c2 * min A2 B2 + (max A2 B2 - min A2 B2) ≤
      c2 * min A B + (max A B - min A B) + mc := by
  have hM : max A2 B2 ≤ max A B + 1 :=
    max_le (le_trans hdA (by simp [le_max_left, add_le_add_iff_right]))
      (le_trans hdB (by simp [le_max_right, add_le_add_iff_right]))
  have hid : min A B + max A B = A + B := min_add_max A B
  have hid2 : min A2 B2 + max A2 B2 = A2 + B2 := min_add_max A2 B2
  rcases le_total (min A2 B2) (min A B) with hm | hm
  · have hmul : (c2 - 1) * min A2 B2 ≤ (c2 - 1) * min A B :=
      mul_le_mul_of_nonneg_left hm (by linarith)
    rcases hmc with hc | ⟨hc, _⟩ <;> nlinarith
  · have hmul : (c2 - 1) * (min A2 B2 - min A B) ≤ 1 * (min A2 B2 - min A B) :=
      mul_le_mul_of_nonneg_right (by linarith) (by linarith)
    have hmin : min A2 B2 ≤ min A B + 1 := by
      have h := min_le_min hdA hdB
      rwa [min_add_add_right] at h
    rcases hmc with hc | ⟨hc, hsum⟩ <;> nlinarith

theorem gridDist_step (mode : ℕ) (sx sy cx cy nx ny : ℤ) (mc : ℚ)
    (hmv : mc = 1 ∨ mc = SQRT2J)
    (hdx : (nx - cx).natAbs ≤ 1) (hdy : (ny - cy).natAbs ≤ 1)
    (hstraight : mc = 1 → (nx - cx).natAbs + (ny - cy).natAbs ≤ 1)
    (hmode4 : mode = 4 → mc = 1) :
    gridDist mode (nx - sx) (ny - sy) ≤ gridDist mode (cx - sx) (cy - sy) + mc := by
  by_cases hm : mode = 4
  · rw [hmode4 hm]
    simp only [gridDist, if_pos hm]
    have hsum := hstraight (hmode4 hm)
    have h : (nx - sx).natAbs + (ny - sy).natAbs ≤
        (cx - sx).natAbs + (cy - sy).natAbs + 1 := by omega
    push_cast
    exact_mod_cast h
  · simp only [gridDist, if_neg hm]
    have hA2 : (((nx - sx).natAbs : ℕ) : ℚ) ≤ (((cx - sx).natAbs : ℕ) : ℚ) + 1 := by
      have h : (nx - sx).natAbs ≤ (cx - sx).natAbs + 1 := by omega
      exact_mod_cast h
    have hB2 : (((ny - sy).natAbs : ℕ) : ℚ) ≤ (((cy - sy).natAbs : ℕ) : ℚ) + 1 := by
      have h : (ny - sy).natAbs ≤ (cy - sy).natAbs + 1 := by omega
      exact_mod_cast h
    have hcast : ∀ a b : ℕ, ((min a b : ℕ) : ℚ) = min (a : ℚ) (b : ℚ) := by
      intro a b; exact Nat.cast_min a b
    have hcast2 : ∀ a b : ℕ, ((max a b - min a b : ℕ) : ℚ) =
        max (a : ℚ) (b : ℚ) - min (a : ℚ) (b : ℚ) := by
      intro a b
      rw [Nat.cast_sub (min_le_max)]
      push_cast
      rfl
    rw [hcast, hcast, hcast2, hcast2]
    apply phi8_step _ _ _ _ _ SQRT2J_bounds.1 SQRT2J_bounds.2 hA2 hB2
    rcases hmv with h | h
    · right
      refine ⟨h, ?_⟩
      have hs := hstraight h
      have hsum : (nx - sx).natAbs + (ny - sy).natAbs ≤
          (cx - sx).natAbs + (cy - sy).natAbs + 1 := by omega
      exact_mod_cast hsum
    · exact Or.inl h

/-- The state invariant for the C2 lower bound: every stored distance is at
least `(v + 0.01)` times the minimal grid move cost from the start. -/
structure PFInv2 (c : PFCtx) (v : ℚ) (s : PFState) : Prop where
  hkeys : ∀ e ∈ s.heap, ∃ d, mapGet s.dist (pointKey e.value.x e.value.y) = some d
  hsafe : ∀ e ∈ s.heap, 0 ≤ e.value.x ∧ e.value.x < 100000 ∧ 0 ≤ e.value.y
  hdir : ∀ e ∈ s.heap, ∀ p, e.value.prevDir = some p → -3 ≤ p ∧ p ≤ 4
  hdist : ∀ k d, mapGet s.dist k = some d → ∃ x y, 0 ≤ x ∧ x < 100000 ∧ 0 ≤ y ∧
    k = pointKey x y ∧ (v + 1 / 100) * gridDist c.mode (x - c.sx) (y - c.sy) ≤ d

theorem relaxOne_inv2 (useAstar : Bool) (c : PFCtx) (v : ℚ) (cx cy : ℤ)
    (pd : Option ℤ) (s : PFState) (nbr : ℤ × ℤ × ℚ)
    (hflat : ∀ i, i < c.cm.width * c.cm.height → c.cm.costs i = v)
    (hv : 0 ≤ v)
    (hdcc : 0 ≤ c.dcc)
    (hW : c.cm.width ≤ 100000)
    (hcx : 0 ≤ cx ∧ cx < 100000 ∧ 0 ≤ cy)
    (hpd : ∀ p, pd = some p → -3 ≤ p ∧ p ≤ 4)
    (hck : ∃ d, mapGet s.dist (pointKey cx cy) = some d)
    (hmv : nbr.2.2 = 1 ∨ nbr.2.2 = SQRT2J)
    (hdx : (nbr.1 - cx).natAbs ≤ 1) (hdy : (nbr.2.1 - cy).natAbs ≤ 1)
    (hstraight : nbr.2.2 = 1 → (nbr.1 - cx).natAbs + (nbr.2.1 - cy).natAbs ≤ 1)
    (hm4 : c.mode = 4 → nbr.2.2 = 1)
    (hinv : PFInv2 c v s) :
    PFInv2 c v (relaxOne useAstar c (pointKey cx cy) cx cy pd s nbr) ∧
    (∃ d, mapGet (relaxOne useAstar c (pointKey cx cy) cx cy pd s nbr).dist
      (pointKey cx cy) = some d) := by
  obtain ⟨nx, ny, mc⟩ := nbr
  rcases relaxOne_cases useAstar c (pointKey cx cy) cx cy pd s (nx, ny, mc) with
    heq | ⟨hb1, hb2, hb3, hb4, hdold, heq⟩
  · rw [heq]; exact ⟨hinv, hck⟩
  · simp only at hb1 hb2 hb3 hb4 hdold hmv hdx hdy hstraight hm4
    obtain ⟨dcur, hdcur⟩ := hck
    have hnx100 : nx < 100000 := by omega
    have hidx : ny.toNat * c.cm.width + nx.toNat < c.cm.width * c.cm.height := by
      have h1 : nx.toNat < c.cm.width := by omega
      have h2 : ny.toNat < c.cm.height := by omega
      calc ny.toNat * c.cm.width + nx.toNat
          < ny.toNat * c.cm.width + c.cm.width := by omega
        _ = (ny.toNat + 1) * c.cm.width := by ring
        _ ≤ c.cm.height * c.cm.width := Nat.mul_le_mul_right _ (by omega)
        _ = c.cm.width * c.cm.height := Nat.mul_comm _ _
    have hec : c.cm.costs (ny.toNat * c.cm.width + nx.toNat) = v := hflat _ hidx
    have hdc : 0 ≤ relaxDirCost c pd (dirOf (nx - cx) (ny - cy)) :=
      relaxDirCost_nonneg c pd _ hdcc (dirOf_bounds _ _).1 (dirOf_bounds _ _).2 hpd
    obtain ⟨x0, y0, hx0, hx02, hy0, hkey0, hbound0⟩ := hinv.hdist _ _ hdcur
    obtain ⟨hxx, hyy⟩ := pointKey_inj x0 y0 cx cy hx0 hx02 hcx.1 hcx.2.1 hkey0.symm
    rw [hxx, hyy] at hbound0
    have hw : (0 : ℚ) ≤ v + 1 / 100 := by linarith
    have hstep := gridDist_step c.mode c.sx c.sy cx cy nx ny mc hmv hdx hdy hstraight hm4
    have htotal : (v + 1 / 100) * gridDist c.mode (nx - c.sx) (ny - c.sy) ≤
        relaxTotal c (pointKey cx cy) cx cy pd s (nx, ny, mc) := by
      simp only [relaxTotal, hdcur, Option.getD_some, hec]
      have h1 : (v + 1 / 100) * gridDist c.mode (nx - c.sx) (ny - c.sy) ≤
          (v + 1 / 100) * (gridDist c.mode (cx - c.sx) (cy - c.sy) + mc) :=
        mul_le_mul_of_nonneg_left hstep hw
      have hmc0 : (1 : ℚ) ≤ mc := by
        rcases hmv with h | h
        · rw [h]
        · rw [h]; exact SQRT2J_bounds.1
      nlinarith
    rw [heq]
    set total := relaxTotal c (pointKey cx cy) cx cy pd s (nx, ny, mc) with htdef
    have hnk : pointKey nx ny ≠ pointKey cx cy ∨ True := Or.inr trivial
    refine ⟨⟨?_, ?_, ?_, ?_⟩, ?_⟩
    · intro e he
      simp only at he ⊢
      rcases mem_of_mem_heapPush _ _ _ e he with hold | hnew
      · obtain ⟨d, hd⟩ := hinv.hkeys e hold
        by_cases hkey : pointKey e.value.x e.value.y = pointKey nx ny
        · rw [hkey, mapGet_mapSet_self]
          exact ⟨total, rfl⟩
        · rw [mapGet_mapSet_ne _ _ _ _ hkey]
          exact ⟨d, hd⟩
      · rw [hnew]
        simp only
        rw [mapGet_mapSet_self]
        exact ⟨total, rfl⟩
    · intro e he
      simp only at he
      rcases mem_of_mem_heapPush _ _ _ e he with hold | hnew
      · exact hinv.hsafe e hold
      · rw [hnew]
        exact ⟨hb1, hnx100, hb3⟩
    · intro e he p hp
      simp only at he
      rcases mem_of_mem_heapPush _ _ _ e he with hold | hnew
      · exact hinv.hdir e hold p hp
      · rw [hnew] at hp
        simp only at hp
        obtain rfl := Option.some.inj hp
        exact dirOf_bounds _ _
    · intro k d hkd
      simp only at hkd
      by_cases hknk : k = pointKey nx ny
      · subst hknk
        rw [mapGet_mapSet_self] at hkd
        obtain rfl := Option.some.inj hkd
        exact ⟨nx, ny, hb1, hnx100, hb3, rfl, htotal⟩
      · rw [mapGet_mapSet_ne _ _ _ _ hknk] at hkd
        exact hinv.hdist k d hkd
    · simp only
      by_cases hcknk : pointKey cx cy = pointKey nx ny
      · rw [hcknk, mapGet_mapSet_self]
        exact ⟨total, rfl⟩
      · rw [mapGet_mapSet_ne _ _ _ _ hcknk]
        exact ⟨dcur, hdcur⟩

theorem foldl_relax_inv2 (useAstar : Bool) (c : PFCtx) (v : ℚ) (cx cy : ℤ)
    (pd : Option ℤ)
    (hflat : ∀ i, i < c.cm.width * c.cm.height → c.cm.costs i = v)
    (hv : 0 ≤ v)
    (hdcc : 0 ≤ c.dcc)
    (hW : c.cm.width ≤ 100000)
    (hcx : 0 ≤ cx ∧ cx < 100000 ∧ 0 ≤ cy)
    (hpd : ∀ p, pd = some p → -3 ≤ p ∧ p ≤ 4) :
    ∀ (l : List (ℤ × ℤ × ℚ)) (s : PFState),
      (∀ nbr ∈ l, (nbr.2.2 = 1 ∨ nbr.2.2 = SQRT2J) ∧
        (nbr.1 - cx).natAbs ≤ 1 ∧ (nbr.2.1 - cy).natAbs ≤ 1 ∧
        (nbr.2.2 = 1 → (nbr.1 - cx).natAbs + (nbr.2.1 - cy).natAbs ≤ 1) ∧
        (c.mode = 4 → nbr.2.2 = 1)) →
      PFInv2 c v s → (∃ d, mapGet s.dist (pointKey cx cy) = some d) →
      PFInv2 c v (l.foldl (relaxOne useAstar c (pointKey cx cy) cx cy pd) s) := by
  intro l
  induction l with
  | nil => intro s _ hinv _; exact hinv
  | cons a t ih =>
    intro s hl hinv hck
    simp only [List.foldl_cons]
    obtain ⟨hf1, hf2, hf3, hf4, hf5⟩ := hl a (List.mem_cons_self _ _)
    obtain ⟨h1, h2⟩ := relaxOne_inv2 useAstar c v cx cy pd s a hflat hv hdcc hW hcx hpd hck
      hf1 hf2 hf3 hf4 hf5 hinv
    exact ih _ (fun nbr hn => hl nbr (List.mem_cons_of_mem _ hn)) h1 h2

theorem pfLoop_lower (useAstar : Bool) (c : PFCtx) (v : ℚ)
    (hflat : ∀ i, i < c.cm.width * c.cm.height → c.cm.costs i = v)
    (hv : 0 ≤ v)
    (hdcc : 0 ≤ c.dcc)
    (hW : c.cm.width ≤ 100000)
    (hex : 0 ≤ c.ex) (hex2 : c.ex < 100000) (hey : 0 ≤ c.ey) :
    ∀ (fuel : ℕ) (s : PFState), PFInv2 c v s →
      ∀ r, pfLoop useAstar c fuel s = some r → r.success = true →
        (((v + 1 / 100) * gridDist c.mode (c.ex - c.sx) (c.ey - c.sy) : ℚ) : WithTop ℚ) ≤
          r.cost := by
  intro fuel
  induction fuel with
  | zero =>
    intro s _ r hr hs
    obtain rfl := Option.some.inj hr.symm
    simp at hs
  | succ n ih =>
    intro s hinv r hr hs
    simp only [pfLoop] at hr
    cases hpop : heapPop s.heap with
    | none =>
      rw [hpop] at hr
      obtain rfl := Option.some.inj hr.symm
      simp at hs
    | some p =>
      obtain ⟨cur, h2⟩ := p
      rw [hpop] at hr
      dsimp only at hr
      by_cases hend : pointKey cur.x cur.y = pointKey c.ex c.ey
      · rw [if_pos hend] at hr
        cases hrec : reconstructPath (s.prev.length + 2) s.prev (pointKey c.sx c.sy)
            (pointKey c.ex c.ey) [] with
        | none => rw [hrec] at hr; exact absurd hr (by simp)
        | some tail =>
          rw [hrec] at hr
          obtain rfl := Option.some.inj hr.symm
          obtain ⟨⟨e, he, hev⟩, _⟩ := heapPop_some s.heap cur h2 hpop
          obtain ⟨dk, hdk⟩ := hinv.hkeys e he
          rw [hev] at hdk
          rw [hend] at hdk
          obtain ⟨x0, y0, hx0, hx02, hy0, hkey0, hbound0⟩ := hinv.hdist _ _ hdk
          obtain ⟨hxx, hyy⟩ := pointKey_inj x0 y0 c.ex c.ey hx0 hx02 hex hex2 hkey0.symm
          rw [hxx, hyy] at hbound0
          simp only [PathfindingResult.cost, hdk, Option.getD_some]
          exact_mod_cast hbound0
      · rw [if_neg hend] at hr
        obtain ⟨⟨e, he, hev⟩, hsub⟩ := heapPop_some s.heap cur h2 hpop
        have hcur_safe := hinv.hsafe e he
        have hcur_dir := hinv.hdir e he
        have hcur_key := hinv.hkeys e he
        rw [hev] at hcur_safe hcur_dir hcur_key
        have hinv2 : PFInv2 c v { s with heap := h2, iterations := s.iterations + 1 } :=
          ⟨fun e2 he2 => hinv.hkeys e2 (hsub e2 he2),
           fun e2 he2 => hinv.hsafe e2 (hsub e2 he2),
           fun e2 he2 => hinv.hdir e2 (hsub e2 he2),
           hinv.hdist⟩
        have hfold := foldl_relax_inv2 useAstar c v cur.x cur.y cur.prevDir hflat hv hdcc hW
          hcur_safe hcur_dir (getNeighbors cur.x cur.y c.mode)
          { s with heap := h2, iterations := s.iterations + 1 }
          (fun nbr hn =>
            ⟨(getNeighbors_facts cur.x cur.y c.mode nbr hn).1,
             (getNeighbors_facts cur.x cur.y c.mode nbr hn).2.2.1,
             (getNeighbors_facts cur.x cur.y c.mode nbr hn).2.2.2.1,
             (getNeighbors_facts cur.x cur.y c.mode nbr hn).2.2.2.2.1,
             (getNeighbors_facts cur.x cur.y c.mode nbr hn).2.2.2.2.2⟩)
          hinv2 hcur_key
        exact ih _ hfold r hr hs

/-- C2 (amended): equality of the two returned costs is FALSE even on flat
fields (see the counterexample: a positive direction-continuity cost makes
the costs differ); what does hold, for every cost field whose in-bounds
entries all equal `v ≥ 0`, `cursorInfluence = 0`, identical options with
nonnegative direction-continuity cost, map width at most 100000, and
rounded endpoints in the `pointKey`-safe range, is that dijkstra and astar
are bounded below by the SAME flat-field optimum: whenever either call
succeeds, its returned cost is at least `(v + 0.01)` times the minimal
grid move cost between the rounded endpoints. -/
theorem dijkstra_astar_flat_lower_bound
    (start endPt : Point) (costMap : CostMap) (options : PathfindingOptions) (v : ℚ)
    (hflat : ∀ i, i < costMap.width * costMap.height → costMap.costs i = v)
    (hv : 0 ≤ v)
    (hdcc : 0 ≤ options.directionContinuityCost)
    (hW : costMap.width ≤ 100000)
    (hsx : 0 ≤ jsRound start.x) (hsx2 : jsRound start.x < 100000)
    (hsy : 0 ≤ jsRound start.y)
    (hex : 0 ≤ jsRound endPt.x) (hex2 : jsRound endPt.x < 100000)
    (hey : 0 ≤ jsRound endPt.y) :
    (∀ r, dijkstra start endPt costMap options = some r → r.success = true →
      (((v + 1 / 100) * gridDist options.neighborMode
        (jsRound endPt.x - jsRound start.x)
        (jsRound endPt.y - jsRound start.y) : ℚ) : WithTop ℚ) ≤ r.cost) ∧
    (∀ r, astar start endPt costMap options = some r → r.success = true →
      (((v + 1 / 100) * gridDist options.neighborMode
        (jsRound endPt.x - jsRound start.x)
        (jsRound endPt.y - jsRound start.y) : ℚ) : WithTop ℚ) ≤ r.cost) := by
  have hdist0 : ∀ k d,
      mapGet [(pointKey (jsRound start.x) (jsRound start.y), (0 : ℚ))] k = some d →
      ∃ x y, 0 ≤ x ∧ x < 100000 ∧ 0 ≤ y ∧ k = pointKey x y ∧
        (v + 1 / 100) * gridDist options.neighborMode (x - jsRound start.x)
          (y - jsRound start.y) ≤ d := by
    intro k d h
    simp only [mapGet] at h
    split at h
    · next hk =>
      obtain rfl := Option.some.inj h
      subst hk
      refine ⟨jsRound start.x, jsRound start.y, hsx, hsx2, hsy, rfl, ?_⟩
      rw [sub_self, sub_self, gridDist_zero, mul_zero]
    · exact absurd h (by simp)
  have hinit : ∀ n0 : ℚ, PFInv2
      ⟨costMap, options.neighborMode, options.directionContinuityCost,
       jsRound start.x, jsRound start.y, jsRound endPt.x, jsRound endPt.y⟩ v
      ⟨[⟨⟨0, n0⟩, ⟨jsRound start.x, jsRound start.y, none⟩⟩],
       [(pointKey (jsRound start.x) (jsRound start.y), 0)],
       [(pointKey (jsRound start.x) (jsRound start.y), ⟨0, n0⟩)], [], 0⟩ := by
    intro n0
    refine ⟨?_, ?_, ?_, hdist0⟩
    · intro e he
      simp only [List.mem_singleton] at he
      subst he
      exact ⟨0, by simp [mapGet]⟩
    · intro e he
      simp only [List.mem_singleton] at he
      subst he
      exact ⟨hsx, hsx2, hsy⟩
    · intro e he p hp
      simp only [List.mem_singleton] at he
      subst he
      simp at hp
  have hinit0 : PFInv2
      ⟨costMap, options.neighborMode, options.directionContinuityCost,
       jsRound start.x, jsRound start.y, jsRound endPt.x, jsRound endPt.y⟩ v
      ⟨[⟨⟨0, 0⟩, ⟨jsRound start.x, jsRound start.y, none⟩⟩],
       [(pointKey (jsRound start.x) (jsRound start.y), 0)], [], [], 0⟩ := by
    have h := hinit 0
    exact ⟨h.hkeys, h.hsafe, h.hdir, hdist0⟩
  constructor
  · intro r hr hs
    exact pfLoop_lower false
      ⟨costMap, options.neighborMode, options.directionContinuityCost,
       jsRound start.x, jsRound start.y, jsRound endPt.x, jsRound endPt.y⟩ v
      hflat hv hdcc hW hex hex2 hey options.maxIterations
      ⟨[⟨⟨0, 0⟩, ⟨jsRound start.x, jsRound start.y, none⟩⟩],
       [(pointKey (jsRound start.x) (jsRound start.y), 0)], [], [], 0⟩ hinit0 r hr hs
  · intro r hr hs
    exact pfLoop_lower true
      ⟨costMap, options.neighborMode, options.directionContinuityCost,
       jsRound start.x, jsRound start.y, jsRound endPt.x, jsRound endPt.y⟩ v
      hflat hv hdcc hW hex hex2 hey options.maxIterations
      ⟨[⟨⟨0, (((jsRound endPt.x - jsRound start.x) ^ 2 +
              (jsRound endPt.y - jsRound start.y) ^ 2 : ℤ) : ℚ)⟩,
         ⟨jsRound start.x, jsRound start.y, none⟩⟩,],
       [(pointKey (jsRound start.x) (jsRound start.y), 0)],
       [(pointKey (jsRound start.x) (jsRound start.y),
         ⟨0, (((jsRound endPt.x - jsRound start.x) ^ 2 +
              (jsRound endPt.y - jsRound start.y) ^ 2 : ℤ) : ℚ)⟩)], [], 0⟩
      (hinit _) r hr hs

theorem dijkstra_astar_flat_lower_bound_witness :
    (∀ i, i < (⟨2, 1, fun _ => 0⟩ : CostMap).width * (⟨2, 1, fun _ => 0⟩ : CostMap).height →
      (⟨2, 1, fun _ => 0⟩ : CostMap).costs i = (0 : ℚ)) ∧
    (0 : ℚ) ≤ 0 ∧
    (0 : ℚ) ≤ (⟨4, 0, 5⟩ : PathfindingOptions).directionContinuityCost ∧
    (⟨2, 1, fun _ => 0⟩ : CostMap).width ≤ 100000 ∧
    0 ≤ jsRound (⟨0, 0⟩ : Point).x ∧ jsRound (⟨0, 0⟩ : Point).x < 100000 ∧
    0 ≤ jsRound (⟨0, 0⟩ : Point).y ∧
    0 ≤ jsRound (⟨1, 0⟩ : Point).x ∧ jsRound (⟨1, 0⟩ : Point).x < 100000 ∧
    0 ≤ jsRound (⟨1, 0⟩ : Point).y ∧
    ((∀ r, dijkstra ⟨0, 0⟩ ⟨1, 0⟩ ⟨2, 1, fun _ => 0⟩ ⟨4, 0, 5⟩ = some r →
        r.success = true →
        ((((0 : ℚ) + 1 / 100) * gridDist (⟨4, 0, 5⟩ : PathfindingOptions).neighborMode
          (jsRound (⟨1, 0⟩ : Point).x - jsRound (⟨0, 0⟩ : Point).x)
          (jsRound (⟨1, 0⟩ : Point).y - jsRound (⟨0, 0⟩ : Point).y) : ℚ) : WithTop ℚ) ≤
          r.cost) ∧
     (∀ r, astar ⟨0, 0⟩ ⟨1, 0⟩ ⟨2, 1, fun _ => 0⟩ ⟨4, 0, 5⟩ = some r →
        r.success = true →
        ((((0 : ℚ) + 1 / 100) * gridDist (⟨4, 0, 5⟩ : PathfindingOptions).neighborMode
          (jsRound (⟨1, 0⟩ : Point).x - jsRound (⟨0, 0⟩ : Point).x)
          (jsRound (⟨1, 0⟩ : Point).y - jsRound (⟨0, 0⟩ : Point).y) : ℚ) : WithTop ℚ) ≤
          r.cost)) :=
  ⟨fun i _ => rfl, le_refl 0, le_refl 0, by norm_num,
   by norm_num [jsRound], by norm_num [jsRound], by norm_num [jsRound],
   by norm_num [jsRound], by norm_num [jsRound], by norm_num [jsRound],
   dijkstra_astar_flat_lower_bound ⟨0, 0⟩ ⟨1, 0⟩ ⟨2, 1, fun _ => 0⟩ ⟨4, 0, 5⟩ 0
     (fun i _ => rfl) (le_refl 0) (le_refl 0) (by norm_num)
     (by norm_num [jsRound]) (by norm_num [jsRound]) (by norm_num [jsRound])
     (by norm_num [jsRound]) (by norm_num [jsRound]) (by norm_num [jsRound])⟩
